import Mathlib

/-!
Verification of the kro resource-graph controller core against its sources.

The development shallowly embeds, in Lean:
* `pkg/controller/instance/delta/delta.go` — structural comparison of
  desired/observed unstructured objects (`Compare`, `cleanMetadata`,
  `walkCompare`, `walkMap`, `walkSlice`);
* `pkg/simpleschema/markers.go` — marker application (`applyMarkers`),
  custom-type loading (`loadCustomTypes`) and schema building
  (`buildSchema`, `buildFieldSchema`, `buildFieldFromString`);
* the `externalRef` fragment of the generated
  `config/crd/bases/kro.run_resourcegraphdefinitions.yaml` schema;
* parts of the graph builder and instance runtime that are not present in
  the sources (forEach expansion, dimension compilation, the dag package);
  those are modelled from the specification and are marked as such.

Go `interface{}` values coming from `unstructured.Unstructured` are modelled
by the inductive `Value` below (JSON-like trees; Go maps become association
lists, numbers are modelled by `Int`; floating point plays no role in any
verified property).
-/

/-! ## JSON-like values (Go `interface{}` trees from `unstructured`) -/

mutual

inductive Value where
  | null : Value
  | vbool (b : Bool) : Value
  | vint (n : Int) : Value
  | vstr (s : String) : Value
  | list (xs : VList) : Value
  | vmap (m : VFields) : Value

inductive VList where
  | nil : VList
  | cons (head : Value) (tail : VList) : VList

inductive VFields where
  | nil : VFields
  | cons (key : String) (value : Value) (rest : VFields) : VFields

end

mutual

def Value.beq : Value → Value → Bool
  | Value.null, Value.null => true
  | Value.vbool a, Value.vbool b => a == b
  | Value.vint a, Value.vint b => a == b
  | Value.vstr a, Value.vstr b => a == b
  | Value.list a, Value.list b => VList.beq a b
  | Value.vmap a, Value.vmap b => VFields.beq a b
  | _, _ => false

def VList.beq : VList → VList → Bool
  | VList.nil, VList.nil => true
  | VList.cons a as, VList.cons b bs => Value.beq a b && VList.beq as bs
  | _, _ => false

def VFields.beq : VFields → VFields → Bool
  | VFields.nil, VFields.nil => true
  | VFields.cons k a as, VFields.cons k' b bs =>
    k == k' && Value.beq a b && VFields.beq as bs
  | _, _ => false

end

mutual

theorem Value.beq_eq_true_iff : ∀ a b : Value, Value.beq a b = true ↔ a = b
  | Value.null, Value.null => by simp [Value.beq]
  | Value.null, Value.vbool _ | Value.null, Value.vint _ | Value.null, Value.vstr _
  | Value.null, Value.list _ | Value.null, Value.vmap _ => by simp [Value.beq]
  | Value.vbool _, Value.null | Value.vbool _, Value.vint _ | Value.vbool _, Value.vstr _
  | Value.vbool _, Value.list _ | Value.vbool _, Value.vmap _ => by simp [Value.beq]
  | Value.vbool a, Value.vbool b => by simp [Value.beq]
  | Value.vint _, Value.null | Value.vint _, Value.vbool _ | Value.vint _, Value.vstr _
  | Value.vint _, Value.list _ | Value.vint _, Value.vmap _ => by simp [Value.beq]
  | Value.vint a, Value.vint b => by simp [Value.beq]
  | Value.vstr _, Value.null | Value.vstr _, Value.vbool _ | Value.vstr _, Value.vint _
  | Value.vstr _, Value.list _ | Value.vstr _, Value.vmap _ => by simp [Value.beq]
  | Value.vstr a, Value.vstr b => by simp [Value.beq]
  | Value.list _, Value.null | Value.list _, Value.vbool _ | Value.list _, Value.vint _
  | Value.list _, Value.vstr _ | Value.list _, Value.vmap _ => by simp [Value.beq]
  | Value.list a, Value.list b => by
    simp only [Value.beq, VList.beqList_eq_true_iff a b, Value.list.injEq]
  | Value.vmap _, Value.null | Value.vmap _, Value.vbool _ | Value.vmap _, Value.vint _
  | Value.vmap _, Value.vstr _ | Value.vmap _, Value.list _ => by simp [Value.beq]
  | Value.vmap a, Value.vmap b => by
    simp only [Value.beq, VFields.beqFields_eq_true_iff a b, Value.vmap.injEq]

theorem VList.beqList_eq_true_iff : ∀ a b : VList, VList.beq a b = true ↔ a = b
  | VList.nil, VList.nil => by simp [VList.beq]
  | VList.nil, VList.cons _ _ => by simp [VList.beq]
  | VList.cons _ _, VList.nil => by simp [VList.beq]
  | VList.cons a as, VList.cons b bs => by
    simp only [VList.beq, Bool.and_eq_true, Value.beq_eq_true_iff a b, VList.beqList_eq_true_iff as bs,
      VList.cons.injEq]

theorem VFields.beqFields_eq_true_iff : ∀ a b : VFields, VFields.beq a b = true ↔ a = b
  | VFields.nil, VFields.nil => by simp [VFields.beq]
  | VFields.nil, VFields.cons _ _ _ => by simp [VFields.beq]
  | VFields.cons _ _ _, VFields.nil => by simp [VFields.beq]
  | VFields.cons k a as, VFields.cons k' b bs => by
    simp only [VFields.beq, Bool.and_eq_true, beq_iff_eq, Value.beq_eq_true_iff a b,
      VFields.beqFields_eq_true_iff as bs, VFields.cons.injEq, and_assoc]

end

instance : DecidableEq Value :=
  fun a b => decidable_of_iff _ (Value.beq_eq_true_iff a b)

instance : DecidableEq VList :=
  fun a b => decidable_of_iff _ (VList.beqList_eq_true_iff a b)

instance : DecidableEq VFields :=
  fun a b => decidable_of_iff _ (VFields.beqFields_eq_true_iff a b)

/-- Go map indexing `m[k]` with its `ok` flag: first binding of `k`. -/
def VFields.lookup : VFields → String → Option Value
  | VFields.nil, _ => none
  | VFields.cons k v rest, key => if k = key then some v else VFields.lookup rest key

/-- Go `delete(m, k)`: remove every binding of `k` (a Go map has at most one). -/
def VFields.erase : VFields → String → VFields
  | VFields.nil, _ => VFields.nil
  | VFields.cons k v rest, key =>
    if k = key then VFields.erase rest key
    else VFields.cons k v (VFields.erase rest key)

/-- Go map assignment `m[k] = v` on the model: replace every binding of `k`. -/
def VFields.setKey : VFields → String → Value → VFields
  | VFields.nil, _, _ => VFields.nil
  | VFields.cons k v rest, key, newV =>
    VFields.cons k (if k = key then newV else v) (VFields.setKey rest key newV)

def VFields.isEmpty : VFields → Bool
  | VFields.nil => true
  | VFields.cons _ _ _ => false

def VList.length : VList → Nat
  | VList.nil => 0
  | VList.cons _ tail => 1 + VList.length tail

/-! ## Delta computer (`pkg/controller/instance/delta/delta.go`) -/

/-- `delta.Difference`: one difference between desired and observed, with the
dotted/indexed field path. Go `nil` interface values are `Value.null`. -/
structure Difference where
  path : String
  desired : Value
  observed : Value
  deriving DecidableEq

mutual

/-- `delta.walkCompare`: dispatch on the desired value's shape; a shape
mismatch or scalar inequality yields one difference at the current path.
The list/list arm is `walkSlice`, inlined here so the mutual recursion stays
structural; `walkSlice` below packages it under its Go name. -/
def walkCompare (desired observed : Value) (path : String) : List Difference :=
  match desired, observed with
  | Value.vmap d, Value.vmap o => walkMap d o path
  | Value.vmap d, o => [⟨path, Value.vmap d, o⟩]
  | Value.list ds, Value.list os =>
    if ds.length ≠ os.length then [⟨path, Value.list ds, Value.list os⟩]
    else walkSliceIdx ds os path 0
  | Value.list ds, o => [⟨path, Value.list ds, o⟩]
  | d, o => if d ≠ o then [⟨path, d, o⟩] else []
termination_by structural desired

/-- `delta.walkMap`: walk every key of `desired`; a key absent from
`observed` whose desired value is non-nil is reported as one difference
(with nil observed side); keys only in `observed` are never visited.
Go map iteration order is unspecified; the model walks in list order. -/
def walkMap (desired observed : VFields) (path : String) : List Difference :=
  match desired with
  | VFields.nil => []
  | VFields.cons k dv rest =>
    (let newPath := if path = "" then k else path ++ "." ++ k
     match observed.lookup k with
     | some ov => walkCompare dv ov newPath
     | none =>
       if dv ≠ Value.null then [⟨newPath, dv, Value.null⟩]
       else walkCompare dv Value.null newPath) ++ walkMap rest observed path
termination_by structural desired

def walkSliceIdx (desired observed : VList) (path : String) (i : Nat) : List Difference :=
  match desired, observed with
  | VList.cons d ds, VList.cons o os =>
    walkCompare d o (path ++ "[" ++ toString i ++ "]") ++ walkSliceIdx ds os path (i + 1)
  | _, _ => []
termination_by structural desired

end

/-- `delta.walkSlice`: length mismatch is a single difference at the list's
path; otherwise compare index-wise with an `[i]` path suffix. -/
def walkSlice (desired observed : VList) (path : String) : List Difference :=
  if desired.length ≠ observed.length then
    [⟨path, Value.list desired, Value.list observed⟩]
  else walkSliceIdx desired observed path 0

/-- `walkCompare` on two lists is exactly `walkSlice`. -/
theorem walkCompare_list_eq_walkSlice (ds os : VList) (path : String) :
    walkCompare (Value.list ds) (Value.list os) path = walkSlice ds os path := by
  simp [walkCompare, walkSlice]

/-- The server-managed metadata keys deleted by `delta.cleanMetadata`. -/
def fieldsToRemove : List String :=
  ["creationTimestamp", "deletionTimestamp", "generation", "resourceVersion",
   "selfLink", "uid", "managedFields", "ownerReferences", "finalizers"]

/-- Drop an empty-map entry at `key` (the `len(...) == 0` deletions of
`cleanMetadata` for `annotations` and `labels`). A non-map value fails the
Go type assertion and is kept. -/
def dropIfEmptyMap (md : VFields) (key : String) : VFields :=
  match md.lookup key with
  | some (Value.vmap VFields.nil) => md.erase key
  | _ => md

/-- `delta.cleanMetadata`: if the object carries a map-valued `metadata`,
delete empty `annotations`/`labels` and every server-managed field in
`fieldsToRemove`; otherwise leave the object untouched. -/
def cleanMetadata (obj : Value) : Value :=
  match obj with
  | Value.vmap fields =>
    match fields.lookup "metadata" with
    | some (Value.vmap md) =>
      let md := dropIfEmptyMap md "annotations"
      let md := dropIfEmptyMap md "labels"
      let md := fieldsToRemove.foldl (fun acc f => acc.erase f) md
      Value.vmap (fields.setKey "metadata" (Value.vmap md))
    | _ => Value.vmap fields
  | v => v

/-- `delta.Compare`: deep-copy both objects, strip server metadata from the
copies, and walk. The copies are value-level in the pure model; the heap
model below accounts for the in-place mutation. -/
def Compare (desired observed : Value) : List Difference :=
  walkCompare (cleanMetadata desired) (cleanMetadata observed) ""

/-! ### Heap model for `Compare`'s copy-then-mutate discipline

`cleanMetadata` mutates its argument in place; `Compare` protects its callers
by calling `DeepCopy` first. The model makes the mutation observable: a heap
is a list of objects addressed by index, `DeepCopy` allocates a fresh cell,
and `cleanMetadata` overwrites a cell. -/

structure Heap where
  cells : List Value
  deriving DecidableEq

def Heap.get (h : Heap) (id : Nat) : Value :=
  h.cells.getD id Value.null

/-- `DeepCopy`: allocate a fresh cell holding the same tree; returns the heap
and the new cell's address. -/
def Heap.deepCopy (h : Heap) (id : Nat) : Heap × Nat :=
  (⟨h.cells ++ [h.get id]⟩, h.cells.length)

/-- `cleanMetadata(obj)` as the in-place mutation it is in Go. -/
def Heap.cleanAt (h : Heap) (id : Nat) : Heap :=
  ⟨h.cells.set id (cleanMetadata (h.get id))⟩

/-- `delta.Compare` against the heap: copy both arguments, clean the copies
in place, walk the copies. Returns the differences and the final heap. -/
def compareOnHeap (h : Heap) (desired observed : Nat) : List Difference × Heap :=
  let h1 := (h.deepCopy desired).1
  let desiredCopy := (h.deepCopy desired).2
  let h2 := (h1.deepCopy observed).1
  let observedCopy := (h1.deepCopy observed).2
  let h3 := h2.cleanAt desiredCopy
  let h4 := h3.cleanAt observedCopy
  (walkCompare (h4.get desiredCopy) (h4.get observedCopy) "", h4)

/-! ### Well-formedness: association lists that denote actual Go maps

A Go `map[string]interface{}` binds each key at most once; only association
lists without duplicate keys (recursively) represent unstructured data. -/

def VFields.hasKey (m : VFields) (k : String) : Bool :=
  (m.lookup k).isSome

mutual

def Value.wf : Value → Bool
  | Value.null => true
  | Value.vbool _ => true
  | Value.vint _ => true
  | Value.vstr _ => true
  | Value.list xs => xs.wf
  | Value.vmap m => m.wf

def VList.wf : VList → Bool
  | VList.nil => true
  | VList.cons v rest => v.wf && rest.wf

def VFields.wf : VFields → Bool
  | VFields.nil => true
  | VFields.cons k v rest => !(rest.hasKey k) && v.wf && rest.wf

end



theorem VFields.lookup_erase : ∀ (m : VFields) (key k : String),
    (m.erase key).lookup k = if k = key then none else m.lookup k
  | VFields.nil, key, k => by simp [VFields.erase, VFields.lookup]
  | VFields.cons k' v rest, key, k => by
    by_cases hk' : k' = key
    · rw [VFields.erase, if_pos hk', VFields.lookup_erase rest key k]
      by_cases hkk : k = key
      · rw [if_pos hkk, if_pos hkk]
      · have hk'k : ¬ k' = k := fun h => hkk (h ▸ hk')
        rw [if_neg hkk, if_neg hkk, VFields.lookup, if_neg hk'k]
    · rw [VFields.erase, if_neg hk', VFields.lookup]
      by_cases hk'k : k' = k
      · have hkk : ¬ k = key := fun h => hk' (hk'k.symm ▸ h)
        rw [if_pos hk'k, if_neg hkk, VFields.lookup, if_pos hk'k]
      · rw [if_neg hk'k, VFields.lookup_erase rest key k]
        by_cases hkk : k = key
        · rw [if_pos hkk, if_pos hkk]
        · rw [if_neg hkk, if_neg hkk, VFields.lookup, if_neg hk'k]

theorem VFields.lookup_setKey : ∀ (m : VFields) (key : String) (newV : Value) (k : String),
    (m.setKey key newV).lookup k =
      if k = key then (m.lookup k).map (fun _ => newV) else m.lookup k
  | VFields.nil, key, newV, k => by simp [VFields.setKey, VFields.lookup]
  | VFields.cons k' v rest, key, newV, k => by
    rw [VFields.setKey, VFields.lookup, VFields.lookup]
    by_cases hk'k : k' = k
    · rw [if_pos hk'k, if_pos hk'k]
      by_cases hkk : k = key
      · rw [if_pos hkk, if_pos (hk'k.trans hkk), Option.map_some']
      · rw [if_neg hkk, if_neg (fun h : k' = key => hkk (hk'k.symm.trans h))]
    · rw [if_neg hk'k, if_neg hk'k, VFields.lookup_setKey rest key newV k]

theorem VFields.hasKey_erase (m : VFields) (key k : String) :
    (m.erase key).hasKey k = if k = key then false else m.hasKey k := by
  by_cases h : k = key <;> simp [VFields.hasKey, VFields.lookup_erase, h]

theorem VFields.hasKey_setKey (m : VFields) (key : String) (newV : Value) (k : String) :
    (m.setKey key newV).hasKey k = m.hasKey k := by
  by_cases h : k = key <;> simp [VFields.hasKey, VFields.lookup_setKey, h]

theorem VFields.wf_erase : ∀ (m : VFields) (key : String), m.wf = true →
    (m.erase key).wf = true
  | VFields.nil, _, _ => by simp [VFields.erase, VFields.wf]
  | VFields.cons k v rest, key, h => by
    rw [VFields.wf, Bool.and_eq_true, Bool.and_eq_true, Bool.not_eq_true'] at h
    by_cases hk : k = key
    · rw [VFields.erase, if_pos hk]
      exact VFields.wf_erase rest key h.2
    · rw [VFields.erase, if_neg hk, VFields.wf, Bool.and_eq_true, Bool.and_eq_true,
        Bool.not_eq_true']
      refine ⟨⟨?_, h.1.2⟩, VFields.wf_erase rest key h.2⟩
      rw [VFields.hasKey_erase, if_neg hk, h.1.1]

theorem VFields.wf_setKey : ∀ (m : VFields) (key : String) (newV : Value),
    m.wf = true → newV.wf = true → (m.setKey key newV).wf = true
  | VFields.nil, _, _, _, _ => by simp [VFields.setKey, VFields.wf]
  | VFields.cons k v rest, key, newV, h, hnew => by
    rw [VFields.wf, Bool.and_eq_true, Bool.and_eq_true, Bool.not_eq_true'] at h
    rw [VFields.setKey, VFields.wf, Bool.and_eq_true, Bool.and_eq_true,
      Bool.not_eq_true']
    refine ⟨⟨?_, ?_⟩, VFields.wf_setKey rest key newV h.2 hnew⟩
    · rw [VFields.hasKey_setKey, h.1.1]
    · by_cases hk : k = key
      · rw [if_pos hk]; exact hnew
      · rw [if_neg hk]; exact h.1.2

theorem VFields.wf_lookup : ∀ (m : VFields) (k : String) (v : Value),
    m.wf = true → m.lookup k = some v → v.wf = true
  | VFields.nil, _, _, _, hl => by simp [VFields.lookup] at hl
  | VFields.cons k' v' rest, k, v, h, hl => by
    rw [VFields.wf, Bool.and_eq_true, Bool.and_eq_true, Bool.not_eq_true'] at h
    rw [VFields.lookup] at hl
    by_cases hk : k' = k
    · rw [if_pos hk] at hl
      exact Option.some.inj hl ▸ h.1.2
    · rw [if_neg hk] at hl
      exact VFields.wf_lookup rest k v h.2 hl

theorem lookup_dropIfEmptyMap_ne (m : VFields) (key k : String) (h : k ≠ key) :
    (dropIfEmptyMap m key).lookup k = m.lookup k := by
  rw [dropIfEmptyMap]
  cases hm : m.lookup key with
  | none => rfl
  | some v =>
    cases v with
    | vmap md =>
      cases md with
      | nil => rw [VFields.lookup_erase, if_neg h]
      | cons a b c => rfl
    | null => rfl
    | vbool b => rfl
    | vint n => rfl
    | vstr s => rfl
    | list xs => rfl

theorem lookup_dropIfEmptyMap_self (m : VFields) (key : String) :
    (dropIfEmptyMap m key).lookup key ≠ some (Value.vmap VFields.nil) := by
  rw [dropIfEmptyMap]
  cases hm : m.lookup key with
  | none => simp [hm]
  | some v =>
    cases v with
    | vmap md =>
      cases md with
      | nil => simp [VFields.lookup_erase]
      | cons a b c => simp [hm]
    | null => simp [hm]
    | vbool b => simp [hm]
    | vint n => simp [hm]
    | vstr s => simp [hm]
    | list xs => simp [hm]

theorem wf_dropIfEmptyMap (m : VFields) (key : String) (h : m.wf = true) :
    (dropIfEmptyMap m key).wf = true := by
  rw [dropIfEmptyMap]
  cases m.lookup key with
  | none => exact h
  | some v =>
    cases v with
    | vmap md =>
      cases md with
      | nil => exact VFields.wf_erase m key h
      | cons a b c => exact h
    | null => exact h
    | vbool b => exact h
    | vint n => exact h
    | vstr s => exact h
    | list xs => exact h

theorem lookup_foldlErase (l : List String) (m : VFields) (k : String) :
    ((l.foldl (fun acc f => acc.erase f) m).lookup k) =
      if k ∈ l then none else m.lookup k := by
  induction l generalizing m with
  | nil => simp
  | cons f fs ih =>
    rw [List.foldl_cons, ih]
    by_cases hk : k ∈ fs
    · simp [hk]
    · by_cases hkf : k = f <;> simp [hk, hkf, VFields.lookup_erase]

theorem wf_foldlErase (l : List String) (m : VFields) (h : m.wf = true) :
    (l.foldl (fun acc f => acc.erase f) m).wf = true := by
  induction l generalizing m with
  | nil => exact h
  | cons f fs ih => exact ih _ (VFields.wf_erase m f h)

/-- `cleanMetadata` sends well-formed objects to well-formed objects. -/
theorem cleanMetadata_wf (v : Value) (h : v.wf = true) :
    (cleanMetadata v).wf = true := by
  cases v with
  | vmap fields =>
    rw [cleanMetadata]
    cases hm : fields.lookup "metadata" with
    | none => exact h
    | some mv =>
      cases mv with
      | vmap md =>
        rw [Value.wf] at h ⊢
        have hmdwf : md.wf = true := by
          have := VFields.wf_lookup fields "metadata" (Value.vmap md) h hm
          rwa [Value.wf] at this
        exact VFields.wf_setKey fields "metadata" _ h
          (by
            rw [Value.wf]
            exact wf_foldlErase _ _ (wf_dropIfEmptyMap _ _ (wf_dropIfEmptyMap _ _ hmdwf)))
      | null => exact h
      | vbool b => exact h
      | vint n => exact h
      | vstr s => exact h
      | list xs => exact h
  | null => exact h
  | vbool b => exact h
  | vint n => exact h
  | vstr s => exact h
  | list xs => exact h

mutual

theorem walkCompare_self : ∀ (v : Value), v.wf = true → ∀ path : String,
    walkCompare v v path = []
  | Value.null, _, path => by simp [walkCompare]
  | Value.vbool b, _, path => by simp [walkCompare]
  | Value.vint n, _, path => by simp [walkCompare]
  | Value.vstr s, _, path => by simp [walkCompare]
  | Value.list xs, h, path => by
    rw [Value.wf] at h
    rw [walkCompare_list_eq_walkSlice, walkSlice, if_neg (by simp)]
    exact walkSliceIdx_self xs h path 0
  | Value.vmap m, h, path => by
    rw [Value.wf] at h
    rw [show walkCompare (Value.vmap m) (Value.vmap m) path = walkMap m m path
      from by simp [walkCompare]]
    exact walkMap_sub m m path h (fun _ _ => rfl)

theorem walkMap_sub : ∀ (d o : VFields) (path : String), d.wf = true →
    (∀ k, (d.lookup k).isSome = true → o.lookup k = d.lookup k) →
    walkMap d o path = []
  | VFields.nil, o, path, _, _ => by simp [walkMap]
  | VFields.cons k dv rest, o, path, h, hsub => by
    rw [VFields.wf, Bool.and_eq_true, Bool.and_eq_true, Bool.not_eq_true'] at h
    have hlk : (VFields.cons k dv rest).lookup k = some dv := by
      rw [VFields.lookup, if_pos rfl]
    have ho : o.lookup k = some dv := by
      rw [hsub k (by rw [hlk]; rfl), hlk]
    have hrest : walkMap rest o path = [] := by
      refine walkMap_sub rest o path h.2 (fun k' hk' => ?_)
      have hne : ¬ k = k' := by
        intro he
        rw [← he] at hk'
        rw [VFields.hasKey, hk'] at h
        exact Bool.true_eq_false.mp h.1.1
      have hcons : (VFields.cons k dv rest).lookup k' = rest.lookup k' := by
        rw [VFields.lookup, if_neg hne]
      rw [hsub k' (by rw [hcons]; exact hk'), hcons]
    rw [walkMap]
    simp only [ho, hrest, List.append_nil]
    exact walkCompare_self dv h.1.2 _

theorem walkSliceIdx_self : ∀ (xs : VList), xs.wf = true → ∀ (path : String) (i : Nat),
    walkSliceIdx xs xs path i = []
  | VList.nil, _, path, i => by simp [walkSliceIdx]
  | VList.cons v vs, h, path, i => by
    rw [VList.wf, Bool.and_eq_true] at h
    rw [walkSliceIdx, walkSliceIdx_self vs h.2 path (i + 1), List.append_nil]
    exact walkCompare_self v h.1 _

end

/-- Comparing a well-formed object with itself yields no differences. -/
theorem Compare_self (d : Value) (h : d.wf = true) : Compare d d = [] :=
  walkCompare_self (cleanMetadata d) (cleanMetadata_wf d h) ""

/-- Read `obj.metadata[f]` when the object and its metadata are maps. -/
def lookupMeta (v : Value) (f : String) : Option Value :=
  match v with
  | Value.vmap fields =>
    match fields.lookup "metadata" with
    | some (Value.vmap md) => md.lookup f
    | _ => none
  | _ => none

theorem lookupMeta_cleanMetadata (v : Value) (f : String) (hf : f ∈ fieldsToRemove) :
    lookupMeta (cleanMetadata v) f = none := by
  cases v with
  | vmap fields =>
    rw [cleanMetadata]
    cases hm : fields.lookup "metadata" with
    | none => simp [lookupMeta, hm]
    | some mv =>
      cases mv with
      | vmap md =>
        have hset : ∀ X : Value, (fields.setKey "metadata" X).lookup "metadata" = some X := by
          intro X
          rw [VFields.lookup_setKey, if_pos rfl, hm, Option.map_some']
        simp only [lookupMeta, hset]
        rw [lookup_foldlErase, if_pos hf]
      | null => simp [lookupMeta, hm]
      | vbool b => simp [lookupMeta, hm]
      | vint n => simp [lookupMeta, hm]
      | vstr s => simp [lookupMeta, hm]
      | list xs => simp [lookupMeta, hm]
  | null => simp [cleanMetadata, lookupMeta]
  | vbool b => simp [cleanMetadata, lookupMeta]
  | vint n => simp [cleanMetadata, lookupMeta]
  | vstr s => simp [cleanMetadata, lookupMeta]
  | list xs => simp [cleanMetadata, lookupMeta]

theorem lookupMeta_cleanMetadata_not_empty (v : Value) (key : String)
    (hkey : key = "annotations" ∨ key = "labels") :
    lookupMeta (cleanMetadata v) key ≠ some (Value.vmap VFields.nil) := by
  cases v with
  | vmap fields =>
    rw [cleanMetadata]
    cases hm : fields.lookup "metadata" with
    | none => simp [lookupMeta, hm]
    | some mv =>
      cases mv with
      | vmap md =>
        have hset : ∀ X : Value, (fields.setKey "metadata" X).lookup "metadata" = some X := by
          intro X
          rw [VFields.lookup_setKey, if_pos rfl, hm, Option.map_some']
        simp only [lookupMeta, hset]
        rw [lookup_foldlErase,
          if_neg (by rcases hkey with h | h <;> simp [h, fieldsToRemove])]
        rcases hkey with h | h
        · subst h
          rw [lookup_dropIfEmptyMap_ne _ "labels" "annotations" (by simp)]
          exact lookup_dropIfEmptyMap_self md "annotations"
        · subst h
          exact lookup_dropIfEmptyMap_self (dropIfEmptyMap md "annotations") "labels"
      | null => simp [lookupMeta, hm]
      | vbool b => simp [lookupMeta, hm]
      | vint n => simp [lookupMeta, hm]
      | vstr s => simp [lookupMeta, hm]
      | list xs => simp [lookupMeta, hm]
  | null => simp [cleanMetadata, lookupMeta]
  | vbool b => simp [cleanMetadata, lookupMeta]
  | vint n => simp [cleanMetadata, lookupMeta]
  | vstr s => simp [cleanMetadata, lookupMeta]
  | list xs => simp [cleanMetadata, lookupMeta]

/-- `walkMap` only reads the observed map at keys of the desired map, so two
observed maps agreeing on the desired keys walk identically. -/
theorem walkMap_observed_congr : ∀ (d o o' : VFields) (path : String),
    (∀ k, (d.lookup k).isSome = true → o.lookup k = o'.lookup k) →
    walkMap d o path = walkMap d o' path
  | VFields.nil, o, o', path, _ => by simp [walkMap]
  | VFields.cons k dv rest, o, o', path, hagree => by
    have hk : o.lookup k = o'.lookup k := by
      refine hagree k ?_
      rw [VFields.lookup, if_pos rfl]
      rfl
    have hrest : walkMap rest o path = walkMap rest o' path := by
      refine walkMap_observed_congr rest o o' path (fun k' hk' => ?_)
      refine hagree k' ?_
      rw [VFields.lookup]
      by_cases hkk : k = k'
      · rw [if_pos hkk]; rfl
      · rw [if_neg hkk]; exact hk'
    rw [walkMap, walkMap, hk, hrest]

theorem Heap.length_deepCopy (h : Heap) (j : Nat) :
    ((h.deepCopy j).1).cells.length = h.cells.length + 1 := by
  simp [Heap.deepCopy]

theorem Heap.length_cleanAt (h : Heap) (j : Nat) :
    (h.cleanAt j).cells.length = h.cells.length := by
  simp [Heap.cleanAt]

theorem Heap.get_deepCopy_lt (h : Heap) (j i : Nat) (hi : i < h.cells.length) :
    ((h.deepCopy j).1).get i = h.get i := by
  simp [Heap.deepCopy, Heap.get, List.getD_eq_getElem?_getD, List.getElem?_append, hi]

theorem Heap.get_deepCopy_new (h : Heap) (j : Nat) :
    ((h.deepCopy j).1).get ((h.deepCopy j).2) = h.get j := by
  simp [Heap.deepCopy, Heap.get, List.getD_eq_getElem?_getD, List.getElem?_append]

theorem Heap.get_cleanAt_ne (h : Heap) (j i : Nat) (hij : i ≠ j) :
    (h.cleanAt j).get i = h.get i := by
  simp only [Heap.cleanAt, Heap.get, List.getD_eq_getElem?_getD]
  rw [List.getElem?_set_ne (fun he => hij he.symm)]

theorem Heap.get_cleanAt_self (h : Heap) (j : Nat) (hj : j < h.cells.length) :
    (h.cleanAt j).get j = cleanMetadata (h.get j) := by
  simp only [Heap.cleanAt, Heap.get, List.getD_eq_getElem?_getD]
  rw [List.getElem?_set_eq_of_lt _ hj]
  rfl

theorem compareOnHeap_spec (h : Heap) (d o : Nat)
    (hd : d < h.cells.length) (ho : o < h.cells.length) :
    (compareOnHeap h d o).2.get d = h.get d ∧
    (compareOnHeap h d o).2.get o = h.get o ∧
    (compareOnHeap h d o).1 = Compare (h.get d) (h.get o) := by
  have hdc : (h.deepCopy d).2 = h.cells.length := rfl
  have hoc : ((h.deepCopy d).1.deepCopy o).2 = h.cells.length + 1 := by
    show ((h.deepCopy d).1).cells.length = h.cells.length + 1
    exact Heap.length_deepCopy h d
  have h2len : (((h.deepCopy d).1.deepCopy o).1).cells.length = h.cells.length + 2 := by
    rw [Heap.length_deepCopy, Heap.length_deepCopy]
  have hget2_d : (((h.deepCopy d).1.deepCopy o).1).get d = h.get d := by
    rw [Heap.get_deepCopy_lt _ _ _ (by rw [Heap.length_deepCopy]; omega),
      Heap.get_deepCopy_lt _ _ _ hd]
  have hget2_o : (((h.deepCopy d).1.deepCopy o).1).get o = h.get o := by
    rw [Heap.get_deepCopy_lt _ _ _ (by rw [Heap.length_deepCopy]; omega),
      Heap.get_deepCopy_lt _ _ _ ho]
  have hget2_dc : (((h.deepCopy d).1.deepCopy o).1).get (h.cells.length) = h.get d := by
    rw [show (h.cells.length : Nat) = (h.deepCopy d).2 from rfl,
      Heap.get_deepCopy_lt _ _ _ (by rw [Heap.length_deepCopy]; omega)]
    exact Heap.get_deepCopy_new h d
  have hget2_oc : (((h.deepCopy d).1.deepCopy o).1).get (h.cells.length + 1) = h.get o := by
    rw [show (h.cells.length + 1 : Nat) = ((h.deepCopy d).1.deepCopy o).2 from hoc.symm,
      Heap.get_deepCopy_new, Heap.get_deepCopy_lt _ _ _ ho]
  simp only [compareOnHeap, hdc, hoc]
  set h2 := ((h.deepCopy d).1.deepCopy o).1 with hh2
  have hg3_d : ((h2.cleanAt h.cells.length).cleanAt (h.cells.length + 1)).get d = h.get d := by
    rw [Heap.get_cleanAt_ne _ _ _ (by omega), Heap.get_cleanAt_ne _ _ _ (by omega), hget2_d]
  have hg3_o : ((h2.cleanAt h.cells.length).cleanAt (h.cells.length + 1)).get o = h.get o := by
    rw [Heap.get_cleanAt_ne _ _ _ (by omega), Heap.get_cleanAt_ne _ _ _ (by omega), hget2_o]
  have hg3_dc : ((h2.cleanAt h.cells.length).cleanAt (h.cells.length + 1)).get h.cells.length
      = cleanMetadata (h.get d) := by
    rw [Heap.get_cleanAt_ne _ _ _ (by omega),
      Heap.get_cleanAt_self _ _ (by rw [h2len]; omega), hget2_dc]
  have hg3_oc : ((h2.cleanAt h.cells.length).cleanAt (h.cells.length + 1)).get
      (h.cells.length + 1) = cleanMetadata (h.get o) := by
    rw [Heap.get_cleanAt_self _ _ (by rw [Heap.length_cleanAt, h2len]; omega),
      Heap.get_cleanAt_ne _ _ _ (by omega), hget2_oc]
  exact ⟨hg3_d, hg3_o, by rw [hg3_dc, hg3_oc]; rfl⟩

/-! ## Claim theorems for the delta computer -/

/-- C3: `Compare` strips the server-managed metadata fields (creation
timestamp, uid, resource version, managed-fields, self link, generation,
owner refs, finalizers — all members of `fieldsToRemove`) and empty
labels/annotations from both sides before walking (`Compare` is by
definition the walk of the two cleaned objects), and `walkMap` never lets a
key that is present only in the observed map contribute a difference: the
walk result depends on the observed map only at the desired map's keys. -/
theorem compare_ignores_server_owned_data :
    (∀ d o : Value, Compare d o = walkCompare (cleanMetadata d) (cleanMetadata o) "") ∧
    (∀ (v : Value) (f : String), f ∈ fieldsToRemove →
      lookupMeta (cleanMetadata v) f = none) ∧
    (∀ v : Value,
      lookupMeta (cleanMetadata v) "annotations" ≠ some (Value.vmap VFields.nil) ∧
      lookupMeta (cleanMetadata v) "labels" ≠ some (Value.vmap VFields.nil)) ∧
    (∀ (d o o' : VFields) (path : String),
      (∀ k, (d.lookup k).isSome = true → o.lookup k = o'.lookup k) →
      walkMap d o path = walkMap d o' path) := by
  refine ⟨fun d o => rfl, lookupMeta_cleanMetadata, fun v => ?_, walkMap_observed_congr⟩
  exact ⟨lookupMeta_cleanMetadata_not_empty v "annotations" (Or.inl rfl),
    lookupMeta_cleanMetadata_not_empty v "labels" (Or.inr rfl)⟩

def sampleObjC3 : Value :=
  Value.vmap (VFields.cons "metadata"
    (Value.vmap (VFields.cons "name" (Value.vstr "cm")
      (VFields.cons "uid" (Value.vstr "u-1")
      (VFields.cons "creationTimestamp" (Value.vstr "2026-01-01")
      (VFields.cons "annotations" (Value.vmap VFields.nil) VFields.nil)))))
    (VFields.cons "spec" (Value.vmap (VFields.cons "a" (Value.vint 1) VFields.nil))
      VFields.nil))

def desiredMapC3 : VFields := VFields.cons "a" (Value.vint 1) VFields.nil

def observedMapC3 : VFields :=
  VFields.cons "a" (Value.vint 1) (VFields.cons "serverOnly" (Value.vstr "x") VFields.nil)

def observedMapC3Restricted : VFields := VFields.cons "a" (Value.vint 1) VFields.nil

theorem compare_ignores_server_owned_data_witness :
    ("uid" ∈ fieldsToRemove ∧ lookupMeta (cleanMetadata sampleObjC3) "uid" = none) ∧
    lookupMeta (cleanMetadata sampleObjC3) "annotations" ≠ some (Value.vmap VFields.nil) ∧
    walkMap desiredMapC3 observedMapC3 "" = walkMap desiredMapC3 observedMapC3Restricted "" := by
  refine ⟨⟨by decide, compare_ignores_server_owned_data.2.1 sampleObjC3 "uid" (by decide)⟩,
    (compare_ignores_server_owned_data.2.2.1 sampleObjC3).1,
    compare_ignores_server_owned_data.2.2.2 desiredMapC3 observedMapC3
      observedMapC3Restricted "" (fun k hk => ?_)⟩
  by_cases hak : "a" = k
  · subst hak
    decide
  · exfalso
    rw [desiredMapC3, VFields.lookup, if_neg hak, VFields.lookup] at hk
    simp at hk

/-- C4: comparing a well-formed object with itself yields no differences, so
a second reconcile pass over unchanged desired and observed state computes
zero diffs. (Well-formed: association-list maps without duplicate keys, the
only lists that denote Go maps.) -/
theorem compare_self_is_empty (d : Value) (h : d.wf = true) : Compare d d = [] :=
  walkCompare_self (cleanMetadata d) (cleanMetadata_wf d h) ""

def sampleObjC4 : Value :=
  Value.vmap (VFields.cons "apiVersion" (Value.vstr "v1")
    (VFields.cons "kind" (Value.vstr "ConfigMap")
    (VFields.cons "metadata"
      (Value.vmap (VFields.cons "name" (Value.vstr "cm")
        (VFields.cons "resourceVersion" (Value.vstr "42")
        (VFields.cons "labels" (Value.vmap VFields.nil) VFields.nil))))
    (VFields.cons "data"
      (Value.vmap (VFields.cons "key" (Value.vstr "a") VFields.nil))
      (VFields.cons "items"
        (Value.list (VList.cons (Value.vint 1) (VList.cons Value.null VList.nil)))
        VFields.nil)))))

theorem compare_self_is_empty_witness :
    sampleObjC4.wf = true ∧ Compare sampleObjC4 sampleObjC4 = [] :=
  ⟨by decide, compare_self_is_empty sampleObjC4 (by decide)⟩

/-- C9: in `walkMap`, a desired key bound to nil that is absent from the
observed map produces no difference — the entry contributes nothing to the
walk, exactly as if the key were not in the desired map at all. -/
theorem walkMap_nil_desired_absent_observed (k : String) (rest o : VFields)
    (path : String) (h : o.lookup k = none) :
    walkMap (VFields.cons k Value.null rest) o path = walkMap rest o path := by
  rw [walkMap, h]
  simp [walkCompare]

def observedMapC9 : VFields := VFields.cons "b" (Value.vint 2) VFields.nil

theorem walkMap_nil_desired_absent_observed_witness :
    observedMapC9.lookup "a" = none ∧
    walkMap (VFields.cons "a" Value.null VFields.nil) observedMapC9 "" =
      walkMap VFields.nil observedMapC9 "" :=
  ⟨by decide, walkMap_nil_desired_absent_observed "a" VFields.nil observedMapC9 ""
    (by decide)⟩

/-- C10: `Compare` run on the heap model leaves both argument objects
exactly as they were: it deep-copies both inputs, strips metadata only on
the copies, and its differences equal the pure `Compare` of the two
original values. -/
theorem compare_preserves_inputs (h : Heap) (d o : Nat)
    (hd : d < h.cells.length) (ho : o < h.cells.length) :
    (compareOnHeap h d o).2.get d = h.get d ∧
    (compareOnHeap h d o).2.get o = h.get o ∧
    (compareOnHeap h d o).1 = Compare (h.get d) (h.get o) :=
  compareOnHeap_spec h d o hd ho

def sampleHeapC10 : Heap :=
  ⟨[Value.vmap (VFields.cons "metadata"
      (Value.vmap (VFields.cons "uid" (Value.vstr "u-1") VFields.nil)) VFields.nil),
    Value.vmap (VFields.cons "metadata"
      (Value.vmap (VFields.cons "uid" (Value.vstr "u-2") VFields.nil)) VFields.nil)]⟩

theorem compare_preserves_inputs_witness :
    (0 < sampleHeapC10.cells.length ∧ 1 < sampleHeapC10.cells.length) ∧
    (compareOnHeap sampleHeapC10 0 1).2.get 0 = sampleHeapC10.get 0 ∧
    (compareOnHeap sampleHeapC10 0 1).2.get 1 = sampleHeapC10.get 1 ∧
    (compareOnHeap sampleHeapC10 0 1).1 =
      Compare (sampleHeapC10.get 0) (sampleHeapC10.get 1) :=
  ⟨⟨by decide, by decide⟩, compare_preserves_inputs sampleHeapC10 0 1 (by decide) (by decide)⟩

/-! ## Go standard-library models used by `pkg/simpleschema/markers.go`

`strconv.ParseBool` is modelled exactly; `strconv.ParseInt(s, 10, 64)` and
the decimal subset of `strconv.ParseFloat(s, 64)` are modelled over
`Int`/`Rat` with the int64 range check; `regexp.Compile` is modelled as
always succeeding (no verified property depends on pattern syntax). -/

def goParseBool (s : String) : Option Bool :=
  if s = "1" ∨ s = "t" ∨ s = "T" ∨ s = "TRUE" ∨ s = "true" ∨ s = "True" then some true
  else if s = "0" ∨ s = "f" ∨ s = "F" ∨ s = "FALSE" ∨ s = "false" ∨ s = "False" then
    some false
  else none

def isDigitChar (c : Char) : Bool := '0' ≤ c && c ≤ '9'

def digitsToNat : List Char → Option Nat
  | [] => none
  | cs =>
    if cs.all isDigitChar then
      some (cs.foldl (fun acc c => acc * 10 + (c.toNat - '0'.toNat)) 0)
    else none

def goParseInt (s : String) : Option Int :=
  let signed : Bool × List Char :=
    match s.toList with
    | '-' :: rest => (true, rest)
    | '+' :: rest => (false, rest)
    | cs => (false, cs)
  match digitsToNat signed.2 with
  | none => none
  | some n =>
    if signed.1 then if n ≤ 2 ^ 63 then some (-(n : Int)) else none
    else if n ≤ 2 ^ 63 - 1 then some (n : Int) else none

def digitsVal (cs : List Char) : Nat :=
  cs.foldl (fun acc c => acc * 10 + (c.toNat - '0'.toNat)) 0

/-- Decimal mantissa-and-exponent subset of Go's float syntax. -/
def goParseFloat (s : String) : Option Rat :=
  let signed : Bool × List Char :=
    match s.toList with
    | '-' :: rest => (true, rest)
    | '+' :: rest => (false, rest)
    | cs => (false, cs)
  let ipart := signed.2.takeWhile isDigitChar
  let r1 := signed.2.dropWhile isDigitChar
  let fracAndRest : Option (List Char × List Char) :=
    match r1 with
    | '.' :: r2 => some (r2.takeWhile isDigitChar, r2.dropWhile isDigitChar)
    | r => some ([], r)
  match fracAndRest with
  | none => none
  | some (fpart, r2) =>
    if ipart.isEmpty ∧ fpart.isEmpty then none
    else
      let mant : Rat := (digitsVal ipart : Rat) + (digitsVal fpart : Rat) / ((10 : Rat) ^ fpart.length)
      let withExp : Option Rat :=
        match r2 with
        | [] => some mant
        | 'e' :: r3 | 'E' :: r3 =>
          let esigned : Bool × List Char :=
            match r3 with
            | '-' :: rest => (true, rest)
            | '+' :: rest => (false, rest)
            | cs => (false, cs)
          match digitsToNat esigned.2 with
          | none => none
          | some e =>
            if esigned.1 then some (mant / (10 : Rat) ^ e) else some (mant * (10 : Rat) ^ e)
        | _ => none
      match withExp with
      | none => none
      | some q => some (if signed.1 then -q else q)

def goRegexpCompileOk (_s : String) : Bool := true

/-! ## Markers and schemas (`pkg/simpleschema/markers.go`) -/

/-- `simpleschema.MarkerType` (the 14 marker kinds). -/
inductive MarkerType where
  | required | default | description | minimum | maximum | validation
  | enum | immutable | pattern | uniqueItems | minLength | maxLength
  | minItems | maxItems
  deriving DecidableEq

/-- `simpleschema.Marker`. -/
structure Marker where
  markerType : MarkerType
  key : String
  value : String
  deriving DecidableEq

/-- The fields of `extv1.JSONSchemaProps` that the compiler reads or writes.
`default`, `enum` hold raw JSON bytes (`extv1.JSON.Raw`) as strings;
`xValidations` holds (rule, message) pairs; numeric bounds are `Rat`
(for `*float64`) and `Int` (for `*int64`). -/
structure JSONSchemaProps where
  type : String := ""
  properties : List (String × JSONSchemaProps) := []
  required : List String := []
  default : Option String := none
  description : String := ""
  minimum : Option Rat := none
  maximum : Option Rat := none
  xValidations : List (String × String) := []
  enum : List String := []
  minLength : Option Int := none
  maxLength : Option Int := none
  minItems : Option Int := none
  maxItems : Option Int := none
  xListType : Option String := none
  pattern : String := ""
  additionalProperties : Option JSONSchemaProps := none
  items : Option JSONSchemaProps := none

/-- The `enum` marker's per-value processing: split on commas, trim, reject
empties; quote for string-typed schemas, check integer syntax for
integer-typed ones, reject any other schema type. -/
def enumRawValues (vals : List String) (schemaType : String) : Except String (List String) :=
  match vals with
  | [] => Except.ok []
  | v :: rest =>
    let v := v.trim
    if v = "" then Except.error "empty enum values are not allowed"
    else
      match schemaType with
      | "string" =>
        (enumRawValues rest schemaType).map (fun tl => ("\"" ++ v ++ "\"") :: tl)
      | "integer" =>
        match goParseInt v with
        | none => Except.error "failed to parse integer enum value"
        | some _ => (enumRawValues rest schemaType).map (fun tl => v :: tl)
      | _ =>
        Except.error ("enum values only supported for string and integer types, got type: "
          ++ schemaType)

/-- One iteration of `applyMarkers`' marker loop: returns the updated
(schema, parentSchema) pair or the error that aborts the loop. -/
def applyMarker (schema : JSONSchemaProps) (marker : Marker) (key : String)
    (parentSchema : JSONSchemaProps) : Except String (JSONSchemaProps × JSONSchemaProps) :=
  match marker.markerType with
  | MarkerType.required =>
    match goParseBool marker.value with
    | none => Except.error "failed to parse required marker value"
    | some isRequired =>
      if isRequired then
        Except.ok (schema, { parentSchema with required := parentSchema.required ++ [key] })
      else Except.ok (schema, parentSchema)
  | MarkerType.default =>
    -- the Go switch quotes for "string" and passes the raw value through in
    -- every other case ("integer"/"number"/"boolean" and default coincide)
    let defaultValue :=
      if schema.type = "string" then "\"" ++ marker.value ++ "\"" else marker.value
    Except.ok ({ schema with default := some defaultValue }, parentSchema)
  | MarkerType.description =>
    Except.ok ({ schema with description := marker.value }, parentSchema)
  | MarkerType.minimum =>
    match goParseFloat marker.value with
    | none => Except.error "failed to parse minimum enum value"
    | some val => Except.ok ({ schema with minimum := some val }, parentSchema)
  | MarkerType.maximum =>
    match goParseFloat marker.value with
    | none => Except.error "failed to parse maximum enum value"
    | some val => Except.ok ({ schema with maximum := some val }, parentSchema)
  | MarkerType.validation =>
    if marker.value.trim = "" then Except.error "validation failed"
    else Except.ok ({ schema with xValidations := [(marker.value, "validation failed")] },
      parentSchema)
  | MarkerType.immutable =>
    match goParseBool marker.value with
    | none => Except.error "failed to parse immutable marker value"
    | some isImmutable =>
      if isImmutable then
        Except.ok ({ schema with
          xValidations := schema.xValidations ++ [("self == oldSelf", "field is immutable")] },
          parentSchema)
      else Except.ok (schema, parentSchema)
  | MarkerType.enum =>
    match enumRawValues (marker.value.splitOn ",") schema.type with
    | Except.error e => Except.error e
    | Except.ok enumJSONValues =>
      if enumJSONValues.length > 0 then
        Except.ok ({ schema with enum := enumJSONValues }, parentSchema)
      else Except.ok (schema, parentSchema)
  | MarkerType.minLength =>
    if schema.type ≠ "string" then
      Except.error ("minLength marker is only valid for string types, got type: " ++ schema.type)
    else
      match goParseInt marker.value with
      | none => Except.error "failed to parse minLength value"
      | some val => Except.ok ({ schema with minLength := some val }, parentSchema)
  | MarkerType.maxLength =>
    if schema.type ≠ "string" then
      Except.error ("maxLength marker is only valid for string types, got type: " ++ schema.type)
    else
      match goParseInt marker.value with
      | none => Except.error "failed to parse maxLength value"
      | some val => Except.ok ({ schema with maxLength := some val }, parentSchema)
  | MarkerType.pattern =>
    if marker.value = "" then Except.error "pattern marker value cannot be empty"
    else if schema.type ≠ "string" then
      Except.error ("pattern marker is only valid for string types, got type: " ++ schema.type)
    else if goRegexpCompileOk marker.value then
      Except.ok ({ schema with pattern := marker.value }, parentSchema)
    else Except.error "invalid pattern regex"
  | MarkerType.uniqueItems =>
    match goParseBool marker.value with
    | none => Except.error "failed to parse uniqueItems marker value"
    | some isUnique =>
      if schema.type ≠ "array" then
        Except.error ("uniqueItems marker is only valid for array types, got type: "
          ++ schema.type)
      else if isUnique then
        Except.ok ({ schema with xListType := some "set" }, parentSchema)
      else Except.ok (schema, parentSchema)
  | MarkerType.minItems =>
    if schema.type ≠ "array" then
      Except.error ("minItems marker is only valid for array types, got type: " ++ schema.type)
    else
      match goParseInt marker.value with
      | none => Except.error "failed to parse minItems value"
      | some val => Except.ok ({ schema with minItems := some val }, parentSchema)
  | MarkerType.maxItems =>
    if schema.type ≠ "array" then
      Except.error ("maxItems marker is only valid for array types, got type: " ++ schema.type)
    else
      match goParseInt marker.value with
      | none => Except.error "failed to parse maxItems value"
      | some val => Except.ok ({ schema with maxItems := some val }, parentSchema)

/-- `simpleschema.applyMarkers`: apply each marker in order to the schema,
threading the parent schema (which collects `required` entries); the first
failing marker aborts with its error. -/
def applyMarkers (schema : JSONSchemaProps) (markers : List Marker) (key : String)
    (parentSchema : JSONSchemaProps) : Except String (JSONSchemaProps × JSONSchemaProps) :=
  match markers with
  | [] => Except.ok (schema, parentSchema)
  | m :: rest =>
    match applyMarker schema m key parentSchema with
    | Except.error e => Except.error e
    | Except.ok (schema', parent') => applyMarkers schema' rest key parent'

def isOkE {α : Type} : Except String α → Bool
  | Except.ok _ => true
  | Except.error _ => false

/-- The zero `extv1.JSONSchemaProps` value. -/
def emptySchemaProps : JSONSchemaProps :=
  { type := "", properties := [], additionalProperties := none, items := none }

/-- C2 counterexample: a `minimum` (and a `maximum`) marker on a field whose
declared type is `string` — not numeric — is accepted by `applyMarkers`,
so marker type checking does not cover the numeric bounds markers. -/
theorem minimum_marker_skips_type_check_cex :
    isOkE (applyMarkers { emptySchemaProps with type := "string" }
      [⟨MarkerType.minimum, "minimum", "3"⟩] "f" emptySchemaProps) = true ∧
    isOkE (applyMarkers { emptySchemaProps with type := "string" }
      [⟨MarkerType.maximum, "maximum", "10"⟩] "f" emptySchemaProps) = true :=
  ⟨rfl, rfl⟩

/-- C2 (amended): `minLength` is a hard error on every non-string field and
`uniqueItems` on every non-array field (with a parseable boolean value), but
`minimum`/`maximum` are applied without a type check: on a field of any
declared type they succeed whenever their value parses as a float, setting
the corresponding bound. -/
theorem marker_type_checks_amended :
    (∀ (schema parent : JSONSchemaProps) (key mk v : String), schema.type ≠ "string" →
      isOkE (applyMarkers schema [⟨MarkerType.minLength, mk, v⟩] key parent) = false) ∧
    (∀ (schema parent : JSONSchemaProps) (key mk v : String), schema.type ≠ "array" →
      (goParseBool v).isSome = true →
      isOkE (applyMarkers schema [⟨MarkerType.uniqueItems, mk, v⟩] key parent) = false) ∧
    (∀ (schema parent : JSONSchemaProps) (key mk v : String) (q : Rat),
      goParseFloat v = some q →
      applyMarkers schema [⟨MarkerType.minimum, mk, v⟩] key parent =
        Except.ok ({ schema with minimum := some q }, parent)) ∧
    (∀ (schema parent : JSONSchemaProps) (key mk v : String) (q : Rat),
      goParseFloat v = some q →
      applyMarkers schema [⟨MarkerType.maximum, mk, v⟩] key parent =
        Except.ok ({ schema with maximum := some q }, parent)) := by
  refine ⟨fun schema parent key mk v h => ?_, fun schema parent key mk v h hb => ?_,
    fun schema parent key mk v q hq => ?_, fun schema parent key mk v q hq => ?_⟩
  · simp [applyMarkers, applyMarker, isOkE, h]
  · obtain ⟨b, hb⟩ := Option.isSome_iff_exists.mp hb
    simp [applyMarkers, applyMarker, isOkE, hb, h]
  · simp [applyMarkers, applyMarker, hq]
  · simp [applyMarkers, applyMarker, hq]

theorem marker_type_checks_amended_witness :
    isOkE (applyMarkers { emptySchemaProps with type := "integer" }
      [⟨MarkerType.minLength, "minLength", "3"⟩] "f" emptySchemaProps) = false ∧
    isOkE (applyMarkers { emptySchemaProps with type := "string" }
      [⟨MarkerType.uniqueItems, "uniqueItems", "true"⟩] "f" emptySchemaProps) = false ∧
    (∃ q, applyMarkers { emptySchemaProps with type := "boolean" }
      [⟨MarkerType.minimum, "minimum", "3"⟩] "f" emptySchemaProps =
        Except.ok ({ emptySchemaProps with type := "boolean", minimum := some q },
          emptySchemaProps)) ∧
    (∃ q, applyMarkers { emptySchemaProps with type := "boolean" }
      [⟨MarkerType.maximum, "maximum", "10"⟩] "f" emptySchemaProps =
        Except.ok ({ emptySchemaProps with type := "boolean", maximum := some q },
          emptySchemaProps)) :=
  ⟨marker_type_checks_amended.1 _ _ "f" "minLength" "3" (by decide),
   marker_type_checks_amended.2.1 _ _ "f" "uniqueItems" "true" (by decide) (by rfl),
   ⟨_, marker_type_checks_amended.2.2.1 _ _ "f" "minimum" "3" _ rfl⟩,
   ⟨_, marker_type_checks_amended.2.2.2 _ _ "f" "maximum" "10" _ rfl⟩⟩

/-! ## Simple-schema types (`pkg/simpleschema`)

Modelled from the spec: the `simpleschema/types` sub-package (parsed `Type`
values, their `Deps` and `Schema` methods) and `ParseField` are not in the
sources; a type is a primitive, `[]T`, `map[string]T`, an inline object, or
a named custom type (§3 of the spec), and a parsed field is its type plus
its marker list. -/

mutual

inductive KType where
  | kstring : KType
  | kinteger : KType
  | kboolean : KType
  | knumber : KType
  | kfloat : KType
  | klist (elem : KType) : KType
  | kmap (value : KType) : KType
  | kobject (fields : KTFields) : KType
  | kcustom (name : String) : KType

inductive KTFields where
  | nil : KTFields
  | cons (name : String) (typ : KType) (rest : KTFields) : KTFields

end

mutual

/-- `types.Type.Deps`: the custom-type names a type refers to. -/
def KType.deps : KType → List String
  | KType.kstring => []
  | KType.kinteger => []
  | KType.kboolean => []
  | KType.knumber => []
  | KType.kfloat => []
  | KType.klist elem => elem.deps
  | KType.kmap value => value.deps
  | KType.kobject fields => fields.deps
  | KType.kcustom name => [name]
termination_by structural t => t

def KTFields.deps : KTFields → List String
  | KTFields.nil => []
  | KTFields.cons _ typ rest => typ.deps ++ rest.deps
termination_by structural fs => fs

end

/-- `simpleschema.customType`: resolved schema plus required flag. -/
structure CustomType where
  schema : JSONSchemaProps
  required : Bool

/-- `simpleschema.transformer`. -/
structure Transformer where
  customTypes : List (String × CustomType)

/-- `transformer.Resolve`: look a custom type up (the Go DeepCopy is the
identity on the pure model). -/
def Transformer.resolve (t : Transformer) (name : String) : Except String JSONSchemaProps :=
  match t.customTypes.lookup name with
  | none => Except.error ("unknown type: " ++ name)
  | some ct => Except.ok ct.schema

/-- `transformer.IsRequired`. -/
def Transformer.isRequired (t : Transformer) (name : String) : Bool :=
  match t.customTypes.lookup name with
  | none => false
  | some ct => ct.required

mutual

/-- `types.Type.Schema` (modelled from the spec): primitives map to their
OpenAPI types, `[]T` to an array with items, `map[string]T` to an object
with additionalProperties, inline objects to an object with properties, and
a custom name resolves through the transformer. -/
def KType.schema (t : Transformer) : KType → Except String JSONSchemaProps
  | KType.kstring => Except.ok { emptySchemaProps with type := "string" }
  | KType.kinteger => Except.ok { emptySchemaProps with type := "integer" }
  | KType.kboolean => Except.ok { emptySchemaProps with type := "boolean" }
  | KType.knumber => Except.ok { emptySchemaProps with type := "number" }
  | KType.kfloat => Except.ok { emptySchemaProps with type := "number" }
  | KType.klist elem =>
    match KType.schema t elem with
    | Except.error e => Except.error e
    | Except.ok s => Except.ok { emptySchemaProps with type := "array", items := some s }
  | KType.kmap value =>
    match KType.schema t value with
    | Except.error e => Except.error e
    | Except.ok s =>
      Except.ok { emptySchemaProps with type := "object", additionalProperties := some s }
  | KType.kobject fields =>
    match KTFields.schemas t fields with
    | Except.error e => Except.error e
    | Except.ok props =>
      Except.ok { emptySchemaProps with type := "object", properties := props }
  | KType.kcustom name => t.resolve name
termination_by structural ty => ty

def KTFields.schemas (t : Transformer) :
    KTFields → Except String (List (String × JSONSchemaProps))
  | KTFields.nil => Except.ok []
  | KTFields.cons name typ rest =>
    match KType.schema t typ with
    | Except.error e => Except.error e
    | Except.ok s =>
      match KTFields.schemas t rest with
      | Except.error e => Except.error e
      | Except.ok tl => Except.ok ((name, s) :: tl)
termination_by structural fs => fs

end

/-! ## Schema building (`transformer.buildSchema` and friends) -/

mutual

/-- A field spec: either a `type | markers` string (already parsed — see the
section comment) or a nested map of fields. -/
inductive FieldSpec where
  | leaf (typ : KType) (markers : List Marker) : FieldSpec
  | obj (fields : FieldList) : FieldSpec

inductive FieldList where
  | nil : FieldList
  | cons (name : String) (spec : FieldSpec) (rest : FieldList) : FieldList

end

/-- `transformer.buildFieldFromString`: build the type's schema, register
the field in the parent's required list when its custom type carries
`required=true`, then apply the field's markers. -/
def Transformer.buildFieldFromString (t : Transformer) (name : String) (typ : KType)
    (markers : List Marker) (parent : JSONSchemaProps) :
    Except String (JSONSchemaProps × JSONSchemaProps) :=
  match typ.schema t with
  | Except.error e => Except.error e
  | Except.ok schema =>
    let parent1 :=
      match typ with
      | KType.kcustom c =>
        if t.isRequired c then { parent with required := parent.required ++ [name] }
        else parent
      | _ => parent
    applyMarkers schema markers name parent1

mutual

/-- The field loop of `transformer.buildSchema`: thread the object schema
being built (it collects `Properties` and `Required`), and report whether
any direct child's schema carries a default. -/
def Transformer.buildSchemaFields (t : Transformer) :
    FieldList → JSONSchemaProps → Except String (JSONSchemaProps × Bool)
  | FieldList.nil, acc => Except.ok (acc, false)
  | FieldList.cons name spec rest, acc =>
    match Transformer.buildFieldSchema t name spec acc with
    | Except.error e => Except.error ("field " ++ name ++ ": " ++ e)
    | Except.ok (fieldSchema, acc1) =>
      let acc2 := { acc1 with properties := acc1.properties ++ [(name, fieldSchema)] }
      match Transformer.buildSchemaFields t rest acc2 with
      | Except.error e => Except.error e
      | Except.ok (final, childHas) =>
        Except.ok (final, childHas || fieldSchema.default.isSome)
termination_by structural fs => fs

/-- `transformer.buildFieldSchema`: strings go through
`buildFieldFromString`, nested maps recurse (the nested-map arm inlines
`buildSchema` so the recursion stays structural; `Transformer.buildSchema`
below packages it). -/
def Transformer.buildFieldSchema (t : Transformer) (name : String) :
    FieldSpec → JSONSchemaProps → Except String (JSONSchemaProps × JSONSchemaProps)
  | FieldSpec.leaf typ markers, parent => t.buildFieldFromString name typ markers parent
  | FieldSpec.obj fields, parent =>
    match Transformer.buildSchemaFields t fields
        { emptySchemaProps with type := "object" } with
    | Except.error e => Except.error e
    | Except.ok (schema, childHasDefault) =>
      Except.ok
        (if childHasDefault then { schema with default := some "{}" } else schema, parent)
termination_by structural fs => fs

end

/-- `transformer.buildSchema`: build an object schema from a field map; when
any direct child's schema has a default, the object's own default becomes
the empty object `{}`. -/
def Transformer.buildSchema (t : Transformer) (spec : FieldList) :
    Except String JSONSchemaProps :=
  match Transformer.buildSchemaFields t spec { emptySchemaProps with type := "object" } with
  | Except.error e => Except.error e
  | Except.ok (schema, childHasDefault) =>
    Except.ok (if childHasDefault then { schema with default := some "{}" } else schema)

/-- `applyMarker` touches the parent only through its `required` list. -/
theorem applyMarker_parent_frame (s : JSONSchemaProps) (m : Marker) (key : String)
    (p s' p' : JSONSchemaProps) (h : applyMarker s m key p = Except.ok (s', p')) :
    p'.properties = p.properties ∧ p'.default = p.default := by
  cases hm : m.markerType <;> simp only [applyMarker, hm] at h <;> repeat' split at h
  all_goals first
    | exact Except.noConfusion h
    | (cases h; exact ⟨rfl, rfl⟩)

/-- `applyMarker` never clears a schema's default. -/
theorem applyMarker_keeps_default (s : JSONSchemaProps) (m : Marker) (key : String)
    (p s' p' : JSONSchemaProps) (h : applyMarker s m key p = Except.ok (s', p'))
    (hd : s.default.isSome = true) : s'.default.isSome = true := by
  cases hm : m.markerType <;> simp only [applyMarker, hm] at h <;> repeat' split at h
  all_goals first
    | exact Except.noConfusion h
    | (cases h; first | exact hd | rfl)

/-- The `default` marker sets the schema's default. -/
theorem applyMarker_default_sets (s : JSONSchemaProps) (m : Marker) (key : String)
    (p s' p' : JSONSchemaProps) (h : applyMarker s m key p = Except.ok (s', p'))
    (hm : m.markerType = MarkerType.default) : s'.default.isSome = true := by
  simp only [applyMarker, hm] at h
  cases h
  rfl

theorem applyMarkers_parent_frame : ∀ (markers : List Marker) (s : JSONSchemaProps)
    (key : String) (p s' p' : JSONSchemaProps),
    applyMarkers s markers key p = Except.ok (s', p') →
    p'.properties = p.properties ∧ p'.default = p.default
  | [], s, key, p, s', p', h => by
    simp only [applyMarkers] at h
    cases h
    exact ⟨rfl, rfl⟩
  | m :: rest, s, key, p, s', p', h => by
    simp only [applyMarkers] at h
    cases h1 : applyMarker s m key p with
    | error e => rw [h1] at h; exact Except.noConfusion h
    | ok pr =>
      rw [h1] at h
      have frame1 := applyMarker_parent_frame s m key p pr.1 pr.2 (by rw [h1])
      have frame2 := applyMarkers_parent_frame rest pr.1 key pr.2 s' p' h
      exact ⟨frame2.1.trans frame1.1, frame2.2.trans frame1.2⟩

theorem applyMarkers_keeps_default : ∀ (markers : List Marker) (s : JSONSchemaProps)
    (key : String) (p s' p' : JSONSchemaProps),
    applyMarkers s markers key p = Except.ok (s', p') →
    s.default.isSome = true → s'.default.isSome = true
  | [], s, key, p, s', p', h, hd => by
    simp only [applyMarkers] at h
    cases h
    exact hd
  | m :: rest, s, key, p, s', p', h, hd => by
    simp only [applyMarkers] at h
    cases h1 : applyMarker s m key p with
    | error e => rw [h1] at h; exact Except.noConfusion h
    | ok pr =>
      rw [h1] at h
      exact applyMarkers_keeps_default rest pr.1 key pr.2 s' p' h
        (applyMarker_keeps_default s m key p pr.1 pr.2 (by rw [h1]) hd)

/-- A `default` marker anywhere in the marker list leaves the resulting
schema with a default. -/
theorem applyMarkers_default_marker : ∀ (markers : List Marker) (s : JSONSchemaProps)
    (key : String) (p s' p' : JSONSchemaProps) (m : Marker),
    m ∈ markers → m.markerType = MarkerType.default →
    applyMarkers s markers key p = Except.ok (s', p') →
    s'.default.isSome = true
  | [], _, _, _, _, _, m, hmem, _, _ => absurd hmem (List.not_mem_nil m)
  | m0 :: rest, s, key, p, s', p', m, hmem, hdm, h => by
    simp only [applyMarkers] at h
    cases h1 : applyMarker s m0 key p with
    | error e => rw [h1] at h; exact Except.noConfusion h
    | ok pr =>
      rw [h1] at h
      rcases List.mem_cons.mp hmem with heq | hrest
      · subst heq
        exact applyMarkers_keeps_default rest pr.1 key pr.2 s' p' h
          (applyMarker_default_sets s m key p pr.1 pr.2 (by rw [h1]) hdm)
      · exact applyMarkers_default_marker rest pr.1 key pr.2 s' p' m hrest hdm h

theorem buildFieldSchema_parent_frame : ∀ (sp : FieldSpec) (t : Transformer) (name : String)
    (parent fs p' : JSONSchemaProps),
    Transformer.buildFieldSchema t name sp parent = Except.ok (fs, p') →
    p'.properties = parent.properties ∧ p'.default = parent.default := by
  intro sp t name parent fs p' h
  cases sp with
  | leaf typ markers =>
    simp only [Transformer.buildFieldSchema, Transformer.buildFieldFromString] at h
    split at h
    · exact Except.noConfusion h
    · have hp : ∀ parent1 : JSONSchemaProps,
          parent1.properties = parent.properties → parent1.default = parent.default →
          ∀ base : JSONSchemaProps,
          applyMarkers base markers name parent1 = Except.ok (fs, p') →
          p'.properties = parent.properties ∧ p'.default = parent.default := by
        intro parent1 h1 h2 base hap
        have hfr := applyMarkers_parent_frame markers base name parent1 fs p' hap
        exact ⟨hfr.1.trans h1, hfr.2.trans h2⟩
      cases typ with
      | kcustom c =>
        by_cases hr : t.isRequired c
        · simp only [hr, if_true] at h
          exact hp { parent with required := parent.required ++ [name] } rfl rfl _ h
        · simp only [hr, if_false] at h
          exact hp parent rfl rfl _ h
      | kstring => exact hp parent rfl rfl _ h
      | kinteger => exact hp parent rfl rfl _ h
      | kboolean => exact hp parent rfl rfl _ h
      | knumber => exact hp parent rfl rfl _ h
      | kfloat => exact hp parent rfl rfl _ h
      | klist e => exact hp parent rfl rfl _ h
      | kmap v => exact hp parent rfl rfl _ h
      | kobject fsx => exact hp parent rfl rfl _ h
  | obj fields =>
    simp only [Transformer.buildFieldSchema] at h
    split at h
    · exact Except.noConfusion h
    · cases h
      exact ⟨rfl, rfl⟩

theorem buildSchemaFields_spec : ∀ (fields : FieldList) (t : Transformer)
    (acc final : JSONSchemaProps) (childHas : Bool),
    Transformer.buildSchemaFields t fields acc = Except.ok (final, childHas) →
    ∃ built : List (String × JSONSchemaProps),
      final.properties = acc.properties ++ built ∧
      final.default = acc.default ∧
      (childHas = true ↔ ∃ pr ∈ built, pr.2.default.isSome = true)
  | FieldList.nil, t, acc, final, childHas, h => by
    simp only [Transformer.buildSchemaFields] at h
    cases h
    exact ⟨[], by simp, rfl, by simp⟩
  | FieldList.cons name spec rest, t, acc, final, childHas, h => by
    simp only [Transformer.buildSchemaFields] at h
    split at h
    · exact Except.noConfusion h
    · rename_i fieldSchema acc1 heq1
      split at h
      · exact Except.noConfusion h
      · rename_i final0 childHas0 heq2
        have frame := buildFieldSchema_parent_frame spec t name acc fieldSchema acc1 heq1
        obtain ⟨builtRest, hprops, hdef, hiff⟩ :=
          buildSchemaFields_spec rest t _ final0 childHas0 heq2
        cases h
        refine ⟨(name, fieldSchema) :: builtRest, ?_, ?_, ?_⟩
        · rw [hprops]
          simp only [frame.1, List.append_assoc, List.singleton_append]
        · rw [hdef]
          exact frame.2
        · rw [Bool.or_eq_true, hiff]
          constructor
          · rintro (⟨q, hq, hq2⟩ | hL)
            · exact ⟨q, List.mem_cons_of_mem _ hq, hq2⟩
            · exact ⟨(name, fieldSchema), List.mem_cons_self _ _, hL⟩
          · rintro ⟨q, hq, hq2⟩
            rcases List.mem_cons.mp hq with heq | hmem
            · exact Or.inr (by rw [heq] at hq2; exact hq2)
            · exact Or.inl ⟨q, hmem, hq2⟩

/-- A field map containing a direct child field string with a `default`
marker. -/
inductive HasDefaultLeaf : FieldList → Prop where
  | here : ∀ (name : String) (typ : KType) (markers : List Marker) (rest : FieldList)
      (m : Marker), m ∈ markers → m.markerType = MarkerType.default →
      HasDefaultLeaf (FieldList.cons name (FieldSpec.leaf typ markers) rest)
  | there : ∀ (name : String) (sp : FieldSpec) (rest : FieldList),
      HasDefaultLeaf rest → HasDefaultLeaf (FieldList.cons name sp rest)

theorem buildSchemaFields_hasDefaultLeaf (fields : FieldList)
    (hdl : HasDefaultLeaf fields) : ∀ (t : Transformer) (acc final : JSONSchemaProps)
    (childHas : Bool),
    Transformer.buildSchemaFields t fields acc = Except.ok (final, childHas) →
    childHas = true := by
  induction hdl with
  | here name typ markers rest m hmem hdm =>
    intro t acc final childHas h
    simp only [Transformer.buildSchemaFields] at h
    split at h
    · exact Except.noConfusion h
    · rename_i fieldSchema acc1 heq1
      split at h
      · exact Except.noConfusion h
      · rename_i final0 childHas0 heq2
        cases h
        clear heq2
        have hfs : fieldSchema.default.isSome = true := by
          simp only [Transformer.buildFieldSchema, Transformer.buildFieldFromString] at heq1
          split at heq1
          · exact Except.noConfusion heq1
          · exact applyMarkers_default_marker markers _ name _ fieldSchema acc1 m hmem hdm heq1
        simp [hfs]
  | there name sp rest hdrest ih =>
    intro t acc final childHas h
    simp only [Transformer.buildSchemaFields] at h
    split at h
    · exact Except.noConfusion h
    · rename_i fieldSchema acc1 heq1
      split at h
      · exact Except.noConfusion h
      · rename_i final0 childHas0 heq2
        have hrec := ih t _ final0 childHas0 heq2
        cases h
        rw [hrec]
        rfl

/-- C6: an object schema built from a nested map gets default `{}` exactly
when some direct child's schema carries a default — in particular whenever a
direct child field string has a `default` marker — and otherwise its default
stays unset. -/
theorem buildSchema_child_default_propagates :
    (∀ (t : Transformer) (spec : FieldList) (result : JSONSchemaProps),
      t.buildSchema spec = Except.ok result →
      ((result.default = some "{}") ↔ ∃ pr ∈ result.properties, pr.2.default.isSome = true) ∧
      (result.default = some "{}" ∨ result.default = none)) ∧
    (∀ (t : Transformer) (spec : FieldList) (result : JSONSchemaProps),
      HasDefaultLeaf spec → t.buildSchema spec = Except.ok result →
      result.default = some "{}") := by
  have hmain : ∀ (t : Transformer) (spec : FieldList) (result : JSONSchemaProps),
      t.buildSchema spec = Except.ok result →
      ((result.default = some "{}") ↔ ∃ pr ∈ result.properties, pr.2.default.isSome = true) ∧
      (result.default = some "{}" ∨ result.default = none) ∧
      (HasDefaultLeaf spec → result.default = some "{}") := by
    intro t spec result h
    simp only [Transformer.buildSchema] at h
    split at h
    · exact Except.noConfusion h
    · rename_i schema childHas heq
      obtain ⟨built, hprops, hdef, hiff⟩ :=
        buildSchemaFields_spec spec t _ schema childHas heq
      have hdef' : schema.default = none := by simpa [emptySchemaProps] using hdef
      have hprops' : schema.properties = built := by simpa [emptySchemaProps] using hprops
      have hhd : HasDefaultLeaf spec → childHas = true :=
        fun hdl => buildSchemaFields_hasDefaultLeaf spec hdl t _ _ childHas heq
      cases h
      cases childHas with
      | true =>
        refine ⟨⟨fun _ => ?_, fun _ => rfl⟩, Or.inl rfl, fun _ => rfl⟩
        have h2 := hiff.mp rfl
        rw [← hprops'] at h2
        exact h2
      | false =>
        refine ⟨⟨fun hc => ?_, fun hex => ?_⟩, Or.inr hdef',
          fun hdl => absurd (hhd hdl) (by simp)⟩
        · have hc' : schema.default = some "{}" := hc
          exact Option.noConfusion (hdef'.symm.trans hc')
        · have hex' : ∃ pr ∈ schema.properties, pr.2.default.isSome = true := hex
          have hcb : (false : Bool) = true := hiff.mpr (by rwa [hprops'] at hex')
          exact Bool.noConfusion hcb
  exact ⟨fun t spec r h => ⟨(hmain t spec r h).1, (hmain t spec r h).2.1⟩,
    fun t spec r hdl h => (hmain t spec r h).2.2 hdl⟩

def transformerC6 : Transformer := ⟨[]⟩

def specWithDefaultC6 : FieldList :=
  FieldList.cons "a"
    (FieldSpec.leaf KType.kstring [⟨MarkerType.default, "default", "x"⟩])
    (FieldList.cons "b" (FieldSpec.leaf KType.kinteger []) FieldList.nil)

theorem buildSchema_child_default_propagates_witness :
    ∃ r, transformerC6.buildSchema specWithDefaultC6 = Except.ok r ∧
      r.default = some "{}" ∧
      ((r.default = some "{}") ↔ ∃ pr ∈ r.properties, pr.2.default.isSome = true) :=
  ⟨_, rfl,
    buildSchema_child_default_propagates.2 transformerC6 specWithDefaultC6 _
      (HasDefaultLeaf.here "a" KType.kstring _ _ _ (List.mem_cons_self _ _) rfl) rfl,
    (buildSchema_child_default_propagates.1 transformerC6 specWithDefaultC6 _ rfl).1⟩

/-! ## Custom-type loading (`transformer.loadCustomTypes`)

The `pkg/graph/dag` package is not in the sources. Modelled from the spec
(§4.5): a DAG over type names whose edges are the referential dependencies;
cycles are rejected and an order is produced in which every type follows its
dependencies (Kahn-style: repeatedly emit a type none of whose dependencies
is still pending). In Go the cycle surfaces from `AddDependencies` as a
`CycleError` and an undeclared dependency as a vertex-not-found error; in
the model both surface when the sort gets stuck or when `Resolve` fails. -/

/-- One dependency edge of the name graph `g`. -/
def depStep (g : List (String × List String)) (a b : String) : Prop :=
  ∃ ds, (a, ds) ∈ g ∧ b ∈ ds

/-- A pending entry is ready when no dependency is still pending. -/
def readyEntry (pendingNames : List String) (p : String × List String) : Bool :=
  p.2.all (fun d => !(pendingNames.contains d))

def kahn : Nat → List (String × List String) → Except String (List String)
  | _, [] => Except.ok []
  | 0, _ :: _ => Except.error "cyclic dependency"
  | fuel + 1, p0 :: pending =>
    match (p0 :: pending).find? (readyEntry ((p0 :: pending).map (·.1))) with
    | none => Except.error "cyclic dependency"
    | some p =>
      match kahn fuel ((p0 :: pending).filter (fun q => q.1 ≠ p.1)) with
      | Except.error e => Except.error e
      | Except.ok order => Except.ok (p.1 :: order)

/-- `dag.TopologicalSort` on the name graph. -/
def topoSort (g : List (String × List String)) : Except String (List String) :=
  kahn g.length g

/-- The dependency graph `loadCustomTypes` builds: one vertex per type name,
edges to the custom-type names it references. -/
def typeDepGraph (types : List (String × (KType × List Marker))) :
    List (String × List String) :=
  types.map (fun p => (p.1, p.2.1.deps))

/-- The schema-building loop of `loadCustomTypes`: walk the topological
order, build each type's schema against the types resolved so far, read the
`required=true` marker, apply the remaining markers against a dummy parent,
and store the resolved custom type. -/
def buildInOrder (t : Transformer) (order : List String)
    (types : List (String × (KType × List Marker))) : Except String Transformer :=
  match order with
  | [] => Except.ok t
  | n :: rest =>
    match types.lookup n with
    | none => Except.error ("resolving type order: unknown name " ++ n)
    | some (typ, markers) =>
      match typ.schema t with
      | Except.error e => Except.error ("building schema for " ++ n ++ ": " ++ e)
      | Except.ok schema =>
        let required := markers.any (fun m => m.key == "required" && m.value == "true")
        match applyMarkers schema markers n emptySchemaProps with
        | Except.error e => Except.error ("applying markers for " ++ n ++ ": " ++ e)
        | Except.ok (schema', _) =>
          buildInOrder { customTypes := t.customTypes ++ [(n, ⟨schema', required⟩)] }
            rest types

/-- `transformer.loadCustomTypes` (parsing already done: each entry carries
its parsed type and markers): empty maps are a no-op; otherwise sort the
dependency graph topologically — rejecting cycles — and resolve the types
in that order. -/
def loadCustomTypes (t : Transformer)
    (types : List (String × (KType × List Marker))) : Except String Transformer :=
  match types with
  | [] => Except.ok t
  | _ :: _ =>
    match topoSort (typeDepGraph types) with
    | Except.error e => Except.error ("resolving type order: " ++ e)
    | Except.ok order => buildInOrder t order types

theorem depStep_mono (small big : List (String × List String))
    (hsub : ∀ x, x ∈ small → x ∈ big) (a b : String) (h : depStep small a b) :
    depStep big a b := by
  obtain ⟨ds, hmem, hb⟩ := h
  exact ⟨ds, hsub _ hmem, hb⟩

/-- A nonempty pending set in which every entry still waits on a pending
name contains a dependency cycle. -/
theorem stuck_has_cycle (pending : List (String × List String))
    (hne : pending ≠ [])
    (hstuck : ∀ p ∈ pending, ∃ d ∈ p.2, d ∈ pending.map (·.1)) :
    ∃ a, Relation.TransGen (depStep pending) a a := by
  have hn : 0 < pending.length := List.length_pos.mpr hne
  have hsig : ∀ i : Fin pending.length, ∃ j : Fin pending.length,
      depStep pending (pending.get i).1 (pending.get j).1 := by
    intro i
    obtain ⟨d, hd, hdn⟩ := hstuck (pending.get i) (pending.get_mem i.1 i.2)
    rw [List.mem_map] at hdn
    obtain ⟨q, hq, hq1⟩ := hdn
    obtain ⟨j, hj⟩ := List.mem_iff_get.mp hq
    refine ⟨j, (pending.get i).2, ?_, ?_⟩
    · exact List.get_mem pending i.1 i.2
    · rw [hj, hq1]
      exact hd
  choose σ hσ using hsig
  set f : Nat → Fin pending.length := fun k => σ^[k] ⟨0, hn⟩ with hf
  have hstepf : ∀ k : Nat,
      depStep pending (pending.get (f k)).1 (pending.get (f (k + 1))).1 := by
    intro k
    have : f (k + 1) = σ (f k) := Function.iterate_succ_apply' σ k ⟨0, hn⟩
    rw [this]
    exact hσ (f k)
  have hchain : ∀ (k i : Nat), 0 < k →
      Relation.TransGen (depStep pending) (pending.get (f i)).1
        (pending.get (f (i + k))).1 := by
    intro k
    induction k with
    | zero => intro i h0; exact absurd h0 (by simp)
    | succ k ih =>
      intro i _
      cases Nat.eq_zero_or_pos k with
      | inl hk0 =>
        subst hk0
        exact Relation.TransGen.single (hstepf i)
      | inr hkpos =>
        have := ih i hkpos
        have hnext := hstepf (i + k)
        exact Relation.TransGen.tail this hnext
  obtain ⟨i, hi, j, hj, hij, hfij⟩ :
      ∃ i ∈ Finset.range (pending.length + 1), ∃ j ∈ Finset.range (pending.length + 1),
        i ≠ j ∧ f i = f j := by
    have hmaps : ∀ a ∈ Finset.range (pending.length + 1),
        f a ∈ (Finset.univ : Finset (Fin pending.length)) := fun a _ => Finset.mem_univ _
    exact Finset.exists_ne_map_eq_of_card_lt_of_maps_to (by simp) hmaps
  rcases Nat.lt_or_ge i j with hlt | hge
  · refine ⟨(pending.get (f i)).1, ?_⟩
    have := hchain (j - i) i (by omega)
    rwa [show i + (j - i) = j from by omega, ← hfij] at this
  · have hlt : j < i := by omega
    refine ⟨(pending.get (f j)).1, ?_⟩
    have := hchain (i - j) j (by omega)
    rwa [show j + (i - j) = i from by omega, hfij] at this

theorem nodup_keys_eq {β : Type} (l : List (String × β))
    (h : (l.map Prod.fst).Nodup) : ∀ {a : String} {b c : β},
    (a, b) ∈ l → (a, c) ∈ l → b = c := by
  induction l with
  | nil => intro a b c hb; exact absurd hb (List.not_mem_nil _)
  | cons hd tl ih =>
    intro a b c hb hc
    rw [List.map_cons, List.nodup_cons] at h
    rcases List.mem_cons.mp hb with hbh | hbt <;> rcases List.mem_cons.mp hc with hch | hct
    · rw [← hbh] at hch
      exact (Prod.mk.injEq _ _ _ _ |>.mp hch).2.symm
    · exfalso
      apply h.1
      rw [← hbh]
      exact List.mem_map.mpr ⟨(a, c), hct, rfl⟩
    · exfalso
      apply h.1
      rw [← hch]
      exact List.mem_map.mpr ⟨(a, b), hbt, rfl⟩
    · exact ih h.2 hbt hct

theorem kahn_sound : ∀ (fuel : Nat) (pending : List (String × List String))
    (order : List String), (pending.map (·.1)).Nodup →
    kahn fuel pending = Except.ok order →
    (∀ n, n ∈ pending.map (·.1) → n ∈ order) ∧
    (∀ n ds d, (n, ds) ∈ pending → d ∈ ds → d ∈ pending.map (·.1) →
      order.indexOf d < order.indexOf n) := by
  intro fuel
  induction fuel with
  | zero =>
    intro pending order hnd h
    cases pending with
    | nil =>
      simp only [kahn] at h
      cases h
      exact ⟨by simp, by simp⟩
    | cons p0 rest => exact Except.noConfusion h
  | succ fuel ih =>
    intro pending order hnd h
    cases pending with
    | nil =>
      simp only [kahn] at h
      cases h
      exact ⟨by simp, by simp⟩
    | cons p0 rest =>
      simp only [kahn] at h
      split at h
      · exact Except.noConfusion h
      · rename_i p hfind
        split at h
        · exact Except.noConfusion h
        · rename_i order' hrec
          cases h
          have hpmem : p ∈ p0 :: rest := List.mem_of_find?_eq_some hfind
          have hready : readyEntry ((p0 :: rest).map (·.1)) p = true :=
            List.find?_some hfind
          have hsubl : (((p0 :: rest).filter (fun q => q.1 ≠ p.1)).map (·.1)).Sublist
              (((p0 :: rest)).map (·.1)) :=
            ((p0 :: rest).filter_sublist).map (·.1)
          have hnd' := hsubl.nodup hnd
          obtain ⟨ihmem, ihord⟩ := ih _ order' hnd' hrec
          constructor
          · intro n hn
            by_cases hnp : n = p.1
            · exact hnp ▸ List.mem_cons_self _ _
            · refine List.mem_cons_of_mem _ (ihmem n ?_)
              rw [List.mem_map] at hn ⊢
              obtain ⟨q, hq, hq1⟩ := hn
              exact ⟨q, List.mem_filter.mpr ⟨hq, by simp [hq1, hnp]⟩, hq1⟩
          · intro n ds d hmem hd hdn
            by_cases hnp : n = p.1
            · exfalso
              have hdsp : ds = p.2 := by
                have hp2 : (p.1, p.2) ∈ p0 :: rest := hpmem
                exact nodup_keys_eq _ hnd (hnp ▸ hmem) hp2
              rw [readyEntry, List.all_eq_true] at hready
              have hgot := hready d (hdsp ▸ hd)
              have hnotmem : d ∉ (p0 :: rest).map (·.1) := by simpa using hgot
              exact hnotmem hdn
            · by_cases hdp : d = p.1
              · rw [hdp, List.indexOf_cons_self]
                rw [List.indexOf_cons_ne _ (fun he => hnp he.symm)]
                exact Nat.succ_pos _
              · rw [List.indexOf_cons_ne _ (fun he => hdp he.symm),
                  List.indexOf_cons_ne _ (fun he => hnp he.symm)]
                have hmem' : (n, ds) ∈ (p0 :: rest).filter (fun q => q.1 ≠ p.1) :=
                  List.mem_filter.mpr ⟨hmem, by simp [hnp]⟩
                have hdn' : d ∈ ((p0 :: rest).filter (fun q => q.1 ≠ p.1)).map (·.1) := by
                  rw [List.mem_map] at hdn ⊢
                  obtain ⟨q, hq, hq1⟩ := hdn
                  exact ⟨q, List.mem_filter.mpr ⟨hq, by simp [hq1, hdp]⟩, hq1⟩
                exact Nat.succ_lt_succ (ihord n ds d hmem' hd hdn')

theorem kahn_complete : ∀ (fuel : Nat) (pending : List (String × List String)),
    pending.length ≤ fuel →
    (∀ a, ¬ Relation.TransGen (depStep pending) a a) →
    ∃ order, kahn fuel pending = Except.ok order := by
  intro fuel
  induction fuel with
  | zero =>
    intro pending hlen _
    rw [Nat.le_zero, List.length_eq_zero] at hlen
    subst hlen
    exact ⟨[], rfl⟩
  | succ fuel ih =>
    intro pending hlen hacyc
    cases pending with
    | nil => exact ⟨[], rfl⟩
    | cons p0 rest =>
      cases hfind : (p0 :: rest).find? (readyEntry ((p0 :: rest).map (·.1))) with
      | none =>
        exfalso
        have hstuck : ∀ p ∈ p0 :: rest, ∃ d ∈ p.2, d ∈ (p0 :: rest).map (·.1) := by
          intro p hp
          have hnr := List.find?_eq_none.mp hfind p hp
          rw [readyEntry] at hnr
          have : ¬ (∀ d ∈ p.2, (!(((p0 :: rest).map (·.1)).contains d)) = true) := by
            intro hall
            exact hnr (List.all_eq_true.mpr hall)
          push_neg at this
          obtain ⟨d, hd, hcon⟩ := this
          refine ⟨d, hd, ?_⟩
          have h1 := hcon
          simp at h1 ⊢
          tauto
        obtain ⟨a, ha⟩ := stuck_has_cycle (p0 :: rest) (by simp) hstuck
        exact hacyc a ha
      | some p =>
        have hpmem : p ∈ p0 :: rest := List.mem_of_find?_eq_some hfind
        have hlt : ((p0 :: rest).filter (fun q => q.1 ≠ p.1)).length <
            (p0 :: rest).length := by
          rw [List.length_filter_lt_length_iff_exists]
          exact ⟨p, hpmem, by simp⟩
        have hacyc' : ∀ a,
            ¬ Relation.TransGen (depStep ((p0 :: rest).filter (fun q => q.1 ≠ p.1))) a a := by
          intro a ha
          refine hacyc a (Relation.TransGen.mono ?_ ha)
          intro x y hxy
          exact depStep_mono _ _ (fun z hz => List.mem_of_mem_filter hz) x y hxy
        obtain ⟨order', hord'⟩ := ih _ (by omega) hacyc'
        refine ⟨p.1 :: order', ?_⟩
        rw [show kahn (fuel + 1) (p0 :: rest) =
          (match (p0 :: rest).find? (readyEntry ((p0 :: rest).map (·.1))) with
           | none => Except.error "cyclic dependency"
           | some p =>
             match kahn fuel ((p0 :: rest).filter (fun q => q.1 ≠ p.1)) with
             | Except.error e => Except.error e
             | Except.ok order => Except.ok (p.1 :: order)) from rfl, hfind]
        show (match kahn fuel ((p0 :: rest).filter (fun q => q.1 ≠ p.1)) with
              | Except.error e => Except.error e
              | Except.ok order => Except.ok (p.1 :: order)) = Except.ok (p.1 :: order')
        rw [hord']

theorem transGen_indexOf (g : List (String × List String)) (order : List String)
    (hord : ∀ n ds d, (n, ds) ∈ g → d ∈ ds → d ∈ g.map (·.1) →
      order.indexOf d < order.indexOf n) :
    ∀ x y, Relation.TransGen (depStep g) x y → y ∈ g.map (·.1) →
      order.indexOf y < order.indexOf x := by
  intro x y h
  induction h with
  | single hstep =>
    intro hy
    obtain ⟨ds, hmem, hd⟩ := hstep
    exact hord _ _ _ hmem hd hy
  | tail hxb hstep ih =>
    intro hy
    obtain ⟨ds, hmemb, hd⟩ := hstep
    have hb : _ ∈ g.map (·.1) := List.mem_map.mpr ⟨_, hmemb, rfl⟩
    exact Nat.lt_trans (hord _ _ _ hmemb hd hy) (ih hb)

/-- A graph admitting a dependency-respecting order has no cycle through any
vertex of the graph. -/
theorem no_cycle_of_topo_order (g : List (String × List String)) (order : List String)
    (hord : ∀ n ds d, (n, ds) ∈ g → d ∈ ds → d ∈ g.map (·.1) →
      order.indexOf d < order.indexOf n)
    (a : String) (ha : Relation.TransGen (depStep g) a a) : False := by
  have hmem : a ∈ g.map (·.1) := by
    obtain ⟨b, hstep, _⟩ := Relation.TransGen.head'_iff.mp ha
    obtain ⟨ds, hm, _⟩ := hstep
    exact List.mem_map.mpr ⟨_, hm, rfl⟩
  exact Nat.lt_irrefl _ (transGen_indexOf g order hord a a ha hmem)

/-- C5: loading a `types:` map whose custom types reference each other
cyclically fails with an error, and for an acyclic map the sort
`loadCustomTypes` resolves along succeeds and places every custom type
after all custom types it references. -/
theorem loadCustomTypes_cycle_and_order :
    (∀ (t : Transformer) (types : List (String × (KType × List Marker))),
      ((typeDepGraph types).map (·.1)).Nodup →
      (∃ a, Relation.TransGen (depStep (typeDepGraph types)) a a) →
      ∃ e, loadCustomTypes t types = Except.error e) ∧
    (∀ types : List (String × (KType × List Marker)),
      ((typeDepGraph types).map (·.1)).Nodup →
      (∀ a, ¬ Relation.TransGen (depStep (typeDepGraph types)) a a) →
      ∃ order, topoSort (typeDepGraph types) = Except.ok order ∧
        (∀ n, n ∈ (typeDepGraph types).map (·.1) → n ∈ order) ∧
        (∀ n ds d, (n, ds) ∈ typeDepGraph types → d ∈ ds →
          d ∈ (typeDepGraph types).map (·.1) → order.indexOf d < order.indexOf n)) := by
  constructor
  · intro t types hnd ⟨a, ha⟩
    obtain ⟨b, hstep, _⟩ := Relation.TransGen.head'_iff.mp ha
    obtain ⟨ds, hmem, _⟩ := hstep
    cases types with
    | nil => exact absurd hmem (List.not_mem_nil _)
    | cons ty tys =>
      cases hts : topoSort (typeDepGraph (ty :: tys)) with
      | error e =>
        refine ⟨"resolving type order: " ++ e, ?_⟩
        show (match topoSort (typeDepGraph (ty :: tys)) with
              | Except.error e => Except.error ("resolving type order: " ++ e)
              | Except.ok order => buildInOrder t order (ty :: tys)) =
          Except.error ("resolving type order: " ++ e)
        rw [hts]
      | ok order =>
        exfalso
        obtain ⟨_, hord⟩ := kahn_sound _ _ order hnd hts
        exact no_cycle_of_topo_order _ order hord a ha
  · intro types hnd hacyc
    obtain ⟨order, hok⟩ :=
      kahn_complete (typeDepGraph types).length (typeDepGraph types) (Nat.le_refl _) hacyc
    obtain ⟨hmem, hord⟩ := kahn_sound _ _ order hnd hok
    exact ⟨order, hok, hmem, hord⟩

def typesCyclicC5 : List (String × (KType × List Marker)) :=
  [("a", (KType.kcustom "b", [])), ("b", (KType.kcustom "a", []))]

def typesAcyclicC5 : List (String × (KType × List Marker)) :=
  [("c", (KType.kcustom "d", [])), ("d", (KType.kstring, []))]

theorem loadCustomTypes_cycle_and_order_witness :
    (∃ e, loadCustomTypes ⟨[]⟩ typesCyclicC5 = Except.error e) ∧
    (∃ order, topoSort (typeDepGraph typesAcyclicC5) = Except.ok order ∧
      (∀ n, n ∈ (typeDepGraph typesAcyclicC5).map (·.1) → n ∈ order) ∧
      (∀ n ds d, (n, ds) ∈ typeDepGraph typesAcyclicC5 → d ∈ ds →
        d ∈ (typeDepGraph typesAcyclicC5).map (·.1) →
        order.indexOf d < order.indexOf n)) := by
  constructor
  · refine loadCustomTypes_cycle_and_order.1 ⟨[]⟩ typesCyclicC5 (by decide) ⟨"a", ?_⟩
    have s1 : depStep (typeDepGraph typesCyclicC5) "a" "b" :=
      ⟨["b"], by decide, by decide⟩
    have s2 : depStep (typeDepGraph typesCyclicC5) "b" "a" :=
      ⟨["a"], by decide, by decide⟩
    exact Relation.TransGen.head s1 (Relation.TransGen.single s2)
  · refine loadCustomTypes_cycle_and_order.2 typesAcyclicC5 (by decide) ?_
    intro a ha
    refine no_cycle_of_topo_order (typeDepGraph typesAcyclicC5) ["d", "c"] ?_ a ha
    intro n ds d hmemn hd hdn
    rcases List.mem_cons.mp hmemn with h1 | h1
    · obtain ⟨hn, hds⟩ := Prod.mk.injEq _ _ _ _ |>.mp h1.symm
      subst hn
      rw [← hds] at hd
      rcases List.mem_singleton.mp hd with rfl
      decide
    · rcases List.mem_cons.mp h1 with h2 | h2
      · obtain ⟨hn, hds⟩ := Prod.mk.injEq _ _ _ _ |>.mp h2.symm
        rw [← hds] at hd
        exact absurd hd (List.not_mem_nil _)
      · exact absurd h2 (List.not_mem_nil _)

/-! ## Collection expansion (instance runtime)

Modelled from the spec: the instance runtime is not in the sources. "If the
resource has `forEach`, evaluate each dimension to a list; the cartesian
product of dimension lists yields the set of items. An iterator tuple binds
one variable per dimension per item. Iteration order is lexicographic by
dimension position, preserving input list order inside each dimension."
A dimension is its iterator name paired with the evaluated list. -/

def expandForEach {α : Type} : List (String × List α) → List (List (String × α))
  | [] => [[]]
  | (it, vals) :: rest =>
    vals.flatMap (fun v => (expandForEach rest).map (fun tuple => (it, v) :: tuple))

/-- The index tuples of the expansion, in emission order. -/
def expandIdx : List Nat → List (List Nat)
  | [] => [[]]
  | n :: rest => (List.range n).flatMap (fun i => (expandIdx rest).map (fun t => i :: t))

/-- The item a given index tuple selects. -/
def itemOf {α : Type} (dims : List (String × List α)) (dflt : α) (idxs : List Nat) :
    List (String × α) :=
  List.zipWith (fun d i => (d.1, d.2.getD i dflt)) dims idxs

theorem flatMap_range_getD {α β : Type} : ∀ (vals : List α) (g : α → List β) (dflt : α),
    vals.flatMap g = (List.range vals.length).flatMap (fun i => g (vals.getD i dflt))
  | [], g, dflt => rfl
  | v :: vs, g, dflt => by
    rw [List.flatMap_cons, List.length_cons, List.range_succ_eq_map, List.flatMap_cons,
      List.flatMap_map]
    rw [show (fun i => g ((v :: vs).getD (Nat.succ i) dflt)) = fun i => g (vs.getD i dflt)
      from rfl]
    rw [flatMap_range_getD vs g dflt]
    rfl

theorem expandForEach_length {α : Type} : ∀ dims : List (String × List α),
    (expandForEach dims).length = (dims.map (fun d => d.2.length)).prod
  | [] => rfl
  | (it, vals) :: rest => by
    rw [expandForEach, List.length_flatMap, List.map_cons, List.prod_cons,
      ← expandForEach_length rest]
    simp only [Function.comp_def, List.length_map, List.map_const', List.sum_replicate,
      smul_eq_mul]

theorem expandForEach_eq_idx {α : Type} (dflt : α) : ∀ dims : List (String × List α),
    expandForEach dims =
      (expandIdx (dims.map (fun d => d.2.length))).map (itemOf dims dflt)
  | [] => rfl
  | (it, vals) :: rest => by
    rw [expandForEach, List.map_cons, expandIdx,
      flatMap_range_getD vals _ dflt, List.map_flatMap]
    refine List.flatMap_congr ?_
    intro i _
    rw [List.map_map, expandForEach_eq_idx dflt rest, List.map_map]
    rfl

theorem expandIdx_pairwise_lex : ∀ sizes : List Nat,
    (expandIdx sizes).Pairwise (List.Lex (· < ·))
  | [] => List.pairwise_singleton _ _
  | n :: rest => by
    rw [expandIdx, List.pairwise_flatMap]
    constructor
    · intro i _
      exact (expandIdx_pairwise_lex rest).map _ (fun a b h => List.Lex.cons h)
    · refine (List.pairwise_lt_range n).imp ?_
      intro i j hij x hx y hy
      rw [List.mem_map] at hx hy
      obtain ⟨tx, _, hxe⟩ := hx
      obtain ⟨ty, _, hye⟩ := hy
      rw [← hxe, ← hye]
      exact List.Lex.rel hij

theorem expandForEach_nodup {α : Type} [DecidableEq α] : ∀ dims : List (String × List α),
    (∀ d ∈ dims, d.2.Nodup) → (expandForEach dims).Nodup
  | [], _ => by simp [expandForEach]
  | (it, vals) :: rest, hnd => by
    rw [expandForEach, List.nodup_flatMap]
    constructor
    · intro v _
      refine ((expandForEach_nodup rest ?_).map ?_)
      · intro d hd
        exact hnd d (List.mem_cons_of_mem _ hd)
      · intro t1 t2 he
        exact (List.cons.injEq _ _ _ _ |>.mp he).2
    · have hvals : vals.Nodup := hnd (it, vals) (List.mem_cons_self _ _)
      refine hvals.imp ?_
      intro a b hab
      rw [Function.onFun, List.disjoint_left]
      intro x hx hx2
      rw [List.mem_map] at hx hx2
      obtain ⟨t1, _, h1⟩ := hx
      obtain ⟨t2, _, h2⟩ := hx2
      rw [← h2] at h1
      exact hab (Prod.mk.injEq _ _ _ _ |>.mp (List.cons.injEq _ _ _ _ |>.mp h1).1).2

/-- C1 counterexample: with a duplicate value in a dimension list the
expansion repeats an iterator tuple, so tuples are not pairwise distinct
for every collection. -/
theorem expandForEach_duplicate_tuples_cex :
    ¬ (expandForEach [("v", ["a", "a"])]).Nodup ∧
    expandForEach [("v", ["a", "a"])] = [[("v", "a")], [("v", "a")]] := by
  constructor
  · decide
  · rfl

/-- C1 (amended): expanding `forEach` dimensions of sizes n₁, …, nₖ yields
exactly ∏ nᵢ items; the items are exactly the dimension-wise selections of
an index-tuple enumeration that is strictly increasing in lexicographic
order by dimension position (so input list order is preserved inside each
dimension); and when every dimension list is duplicate-free the iterator
tuples are pairwise distinct. -/
theorem expandForEach_cartesian {α : Type} [DecidableEq α] (dflt : α)
    (dims : List (String × List α)) :
    (expandForEach dims).length = (dims.map (fun d => d.2.length)).prod ∧
    expandForEach dims =
      (expandIdx (dims.map (fun d => d.2.length))).map (itemOf dims dflt) ∧
    (expandIdx (dims.map (fun d => d.2.length))).Pairwise (List.Lex (· < ·)) ∧
    ((∀ d ∈ dims, d.2.Nodup) → (expandForEach dims).Nodup) :=
  ⟨expandForEach_length dims, expandForEach_eq_idx dflt dims,
    expandIdx_pairwise_lex _, expandForEach_nodup dims⟩

def dimsC1 : List (String × List String) :=
  [("region", ["us", "eu"]), ("tier", ["web", "api"])]

theorem expandForEach_cartesian_witness :
    (∀ d ∈ dimsC1, d.2.Nodup) ∧
    (expandForEach dimsC1).length = 4 ∧
    (expandForEach dimsC1).Nodup ∧
    expandForEach dimsC1 =
      [[("region", "us"), ("tier", "web")], [("region", "us"), ("tier", "api")],
       [("region", "eu"), ("tier", "web")], [("region", "eu"), ("tier", "api")]] := by
  refine ⟨by decide, ?_, ?_, by decide⟩
  · have h := (expandForEach_cartesian "" dimsC1).1
    simpa [dimsC1] using h
  · exact (expandForEach_cartesian "" dimsC1).2.2.2 (by decide)

/-! ## forEach dimension compilation (graph builder)

Modelled from the spec: the graph builder is not in the sources. "Compile
each forEach dimension against the current environment (not yet extended by
sibling dimensions); … reject a dimension that mentions another iterator."
CEL compilation is abstracted to the expression's referenced-variable set:
compiling against an environment fails exactly when a referenced variable is
outside it, and a reference to a sibling iterator gets the dedicated
cannot-reference-other-iterators error seen in the builder tests. -/

structure ForEachDim where
  iterator : String
  exprVars : List String
  deriving DecidableEq

/-- Compile one dimension against the outer environment `env` only. -/
def compileDim (env iterators : List String) (d : ForEachDim) : Except String Unit :=
  match d.exprVars.find? (fun v => !(env.contains v)) with
  | none => Except.ok ()
  | some v =>
    if iterators.contains v then
      Except.error ("forEach iterator expressions cannot reference other iterators: " ++ v)
    else
      Except.error ("undeclared reference to " ++ v)

def compileDimsAux (env iterators : List String) : List ForEachDim →
    Except String (List String)
  | [] => Except.ok []
  | d :: rest =>
    match compileDim env iterators d with
    | Except.error e => Except.error e
    | Except.ok _ =>
      match compileDimsAux env iterators rest with
      | Except.error e => Except.error e
      | Except.ok names => Except.ok (d.iterator :: names)

/-- Compile a resource's `forEach` dimensions: each against `env` alone,
collecting iterator bindings in declaration order. -/
def compileDimensions (env : List String) (dims : List ForEachDim) :
    Except String (List String) :=
  compileDimsAux env (dims.map (·.iterator)) dims

theorem compileDimsAux_bad_var : ∀ (dims' : List ForEachDim) (env iterators : List String)
    (d : ForEachDim) (v : String), d ∈ dims' → v ∈ d.exprVars → v ∉ env →
    isOkE (compileDimsAux env iterators dims') = false
  | [], _, _, _, _, hd, _, _ => absurd hd (List.not_mem_nil _)
  | d0 :: rest, env, iterators, d, v, hd, hv, hvenv => by
    rcases List.mem_cons.mp hd with rfl | hdrest
    · have hfind : (d.exprVars.find? (fun v => !(env.contains v))).isSome = true := by
        rw [List.find?_isSome]
        exact ⟨v, hv, by simpa using hvenv⟩
      rw [Option.isSome_iff_exists] at hfind
      obtain ⟨w, hw⟩ := hfind
      have hcd : isOkE (compileDim env iterators d) = false := by
        rw [compileDim, hw]
        by_cases hci : w ∈ iterators <;> simp [hci, isOkE]
      rw [compileDimsAux]
      cases hc2 : compileDim env iterators d with
      | error e => rfl
      | ok u =>
        rw [hc2] at hcd
        exact absurd hcd (by simp [isOkE])
    · cases hc : compileDim env iterators d0 with
      | error e => rw [compileDimsAux, hc]; rfl
      | ok u =>
        rw [compileDimsAux, hc]
        have := compileDimsAux_bad_var rest env iterators d v hdrest hv hvenv
        cases hrec : compileDimsAux env iterators rest with
        | error e => rfl
        | ok names => rw [hrec] at this; exact absurd this (by simp [isOkE])

/-- C8: a `forEach` dimension whose expression references another dimension's
iterator is rejected — each dimension is compiled against the environment
not yet extended by any iterator, so any iterator reference (not otherwise
in scope) fails; and when every dimension only references the outer
environment, compilation succeeds with the iterators collected in
declaration order. -/
theorem forEach_iterators_cannot_cross_reference :
    (∀ (env : List String) (dims : List ForEachDim) (d : ForEachDim) (v : String),
      d ∈ dims → v ∈ d.exprVars → v ∈ dims.map (·.iterator) → v ∉ env →
      isOkE (compileDimensions env dims) = false) ∧
    (∀ (env : List String) (dims : List ForEachDim),
      (∀ d ∈ dims, ∀ v ∈ d.exprVars, v ∈ env) →
      compileDimensions env dims = Except.ok (dims.map (·.iterator))) := by
  constructor
  · intro env dims d v hd hv _ hvenv
    exact compileDimsAux_bad_var dims env _ d v hd hv hvenv
  · intro env dims hall
    rw [compileDimensions]
    have : ∀ dims' : List ForEachDim, (∀ d ∈ dims', ∀ v ∈ d.exprVars, v ∈ env) →
        compileDimsAux env (dims.map (·.iterator)) dims' =
          Except.ok (dims'.map (·.iterator)) := by
      intro dims'
      induction dims' with
      | nil => intro _; rfl
      | cons d0 rest ih =>
        intro h
        have hfind : d0.exprVars.find? (fun v => !(env.contains v)) = none := by
          rw [List.find?_eq_none]
          intro x hx
          simpa using h d0 (List.mem_cons_self _ _) x hx
        rw [compileDimsAux, compileDim, hfind,
          ih (fun d hd v hv => h d (List.mem_cons_of_mem _ hd) v hv)]
        rfl
    exact this dims hall

def envC8 : List String := ["schema"]

def dimsC8 : List ForEachDim :=
  [⟨"element", ["schema"]⟩, ⟨"derived", ["element"]⟩]

theorem forEach_iterators_cannot_cross_reference_witness :
    (⟨"derived", ["element"]⟩ : ForEachDim) ∈ dimsC8 ∧
    "element" ∈ dimsC8.map (·.iterator) ∧ "element" ∉ envC8 ∧
    isOkE (compileDimensions envC8 dimsC8) = false ∧
    compileDimensions envC8 dimsC8 =
      Except.error "forEach iterator expressions cannot reference other iterators: element" ∧
    compileDimensions envC8 [⟨"element", ["schema"]⟩] = Except.ok ["element"] :=
  ⟨by decide, by decide, by decide,
   forEach_iterators_cannot_cross_reference.1 envC8 dimsC8 ⟨"derived", ["element"]⟩
     "element" (by decide) (by decide) (by decide) (by decide),
   rfl,
   forEach_iterators_cannot_cross_reference.2 envC8 [⟨"element", ["schema"]⟩]
     (by decide)⟩

/-! ## `externalRef` validation (CRD `kro.run_resourcegraphdefinitions.yaml`)

The generated CRD's `externalRef` schema fragment, embedded as data: the
object requires `apiVersion`, `kind` and `metadata`, and `metadata` — an
object with `name` and `namespace` properties — carries
`required: [name, namespace]`. -/

def externalRefRequired : List String := ["apiVersion", "kind", "metadata"]

def externalRefMetadataRequired : List String := ["name", "namespace"]

def requiredOk (fields : VFields) (req : List String) : Bool :=
  req.all (fun r => fields.hasKey r)

/-- Structural validation of an `externalRef` object against the CRD
fragment: both required lists must be satisfied (a non-object where an
object is expected fails). -/
def validateExternalRef (v : Value) : Bool :=
  match v with
  | Value.vmap fields =>
    requiredOk fields externalRefRequired &&
      (match fields.lookup "metadata" with
       | some (Value.vmap md) => requiredOk md externalRefMetadataRequired
       | _ => false)
  | _ => false

def externalRefNoNamespace : Value :=
  Value.vmap (VFields.cons "apiVersion" (Value.vstr "v1")
    (VFields.cons "kind" (Value.vstr "ConfigMap")
    (VFields.cons "metadata"
      (Value.vmap (VFields.cons "name" (Value.vstr "my-config") VFields.nil))
      VFields.nil)))

def externalRefWithNamespace : Value :=
  Value.vmap (VFields.cons "apiVersion" (Value.vstr "v1")
    (VFields.cons "kind" (Value.vstr "ConfigMap")
    (VFields.cons "metadata"
      (Value.vmap (VFields.cons "name" (Value.vstr "my-config")
        (VFields.cons "namespace" (Value.vstr "default") VFields.nil)))
      VFields.nil)))

/-- C7: the CRD schema lists `namespace` among `metadata`'s required fields,
so an `externalRef` giving only apiVersion, kind and name is rejected — the
repo's own documentation (and the spec) call namespace optional, defaulting
to the instance namespace. -/
theorem externalRef_namespace_required_bug :
    "namespace" ∈ externalRefMetadataRequired ∧
    validateExternalRef externalRefNoNamespace = false ∧
    validateExternalRef externalRefWithNamespace = true := by
  decide
